import Mathlib

/-!
# Verification of the Excel column-standardization and merge pipeline

Shallow embedding of `master_merge/main.py` (class `ExcelMerger`): the column
normalizer `analyze_column`, the per-sheet standardized-column extraction of
`extract_dataframes`, the mapping builder `create_column_mapping`, and the
merge engine `merge_dataframes` / `merge_excel_files`.

Modelling conventions:
* Cell values and headers are `Option String` (`none` models null/NaN).
* Python `str.strip().lower()` is modelled character-exactly for ASCII
  (`pyStripLower`); the normalizer only ever compares against ASCII rule keys.
* A pandas `DataFrame` column assignment `df[c] = v` is modelled by `setCol`:
  overwrite in place when the column exists, append otherwise (the source
  relies on this when the provenance columns are written at lines 243-245).
* `standardized_df` starts as an empty frame (line 220).  A non-empty Series
  assignment to a zero-length frame establishes the frame's index
  (pandas `_ensure_valid_index`), after which scalar assignments (`np.nan`
  at line 240, the provenance strings/timestamp at lines 243-245) broadcast
  over that index.  If no mapping entry finds a source column in a table,
  every assignment to its block is a scalar on a frame whose index stays
  empty, so the block keeps zero rows: `project_table` is guarded by
  `tableFound` accordingly.
* `datetime.now()` is modelled by an abstract clock `Nat → String` indexed by
  call order; `merge_dataframes` calls it once per table iteration.
-/

/-- Whitespace characters stripped by Python `str.strip()` (ASCII fragment). -/
def isSpace (c : Char) : Bool :=
  c == ' ' || c == '\t' || c == '\n' || c == '\r' || c == '\x0b' || c == '\x0c'

/-- ASCII lower-casing table, modelling Python `str.lower()` on the ASCII
letters (the only letters occurring in the normalizer's rule table). -/
def lowerTable : List (Char × Char) :=
  [('A','a'), ('B','b'), ('C','c'), ('D','d'), ('E','e'), ('F','f'), ('G','g'),
   ('H','h'), ('I','i'), ('J','j'), ('K','k'), ('L','l'), ('M','m'), ('N','n'),
   ('O','o'), ('P','p'), ('Q','q'), ('R','r'), ('S','s'), ('T','t'), ('U','u'),
   ('V','v'), ('W','w'), ('X','x'), ('Y','y'), ('Z','z')]

/-- ASCII upper-casing table (used to state case-insensitivity). -/
def upperTable : List (Char × Char) := lowerTable.map (fun p => (p.2, p.1))

/-- Lower-case one character (ASCII). -/
def lowerChar (c : Char) : Char :=
  ((lowerTable.find? (fun p => p.1 == c)).map Prod.snd).getD c

/-- Upper-case one character (ASCII). -/
def upperChar (c : Char) : Char :=
  ((upperTable.find? (fun p => p.1 == c)).map Prod.snd).getD c

/-- Remove leading whitespace, as in Python `str.lstrip()`. -/
def lstrip : List Char → List Char
  | [] => []
  | c :: cs => if isSpace c then lstrip cs else c :: cs

/-- Remove trailing whitespace, as in Python `str.rstrip()`. -/
def rstrip : List Char → List Char
  | [] => []
  | c :: cs =>
    let r := rstrip cs
    if r.isEmpty && isSpace c then [] else c :: r

/-- Python `str.strip()`. -/
def stripChars (l : List Char) : List Char := rstrip (lstrip l)

/-- `str(x).strip().lower()` from `analyze_column` (main.py line 63). -/
def pyStripLower (s : String) : String := ⟨(stripChars s.data).map lowerChar⟩

/-- Upper-case a whole string (used only to state case-insensitivity). -/
def asciiUpper (s : String) : String := ⟨s.data.map upperChar⟩

/-- `n` is a prefix of `h` (character lists). -/
def leadsList : List Char → List Char → Bool
  | [], _ => true
  | _ :: _, [] => false
  | a :: as, b :: bs => a == b && leadsList as bs

/-- `n` occurs contiguously somewhere in `h`: Python's `n in h` on strings. -/
def containsList (n : List Char) : List Char → Bool
  | [] => n.isEmpty
  | c :: cs => leadsList n (c :: cs) || containsList n cs

/-- Python substring test `needle in hay`. -/
def strContains (hay needle : String) : Bool := containsList needle.data hay.data

/-- The ordered `replacements` rule table of `analyze_column`
(main.py lines 66-104); Python dicts preserve insertion order, so the
scan `for key, value in replacements.items()` walks exactly this order. -/
def replacements : List (String × String) :=
  [("truck", "truck"),
   ("vehicle", "truck"),
   ("unit", "truck"),
   ("truck_no", "truck_number"),
   ("truck_nbr", "truck_number"),
   ("truck_num", "truck_number"),
   ("truck#", "truck_number"),
   ("trk", "truck"),
   ("loc", "location"),
   ("gps", "location"),
   ("position", "location"),
   ("coord", "location"),
   ("lat", "latitude"),
   ("lon", "longitude"),
   ("long", "longitude"),
   ("status", "status"),
   ("state", "status"),
   ("condition", "status"),
   ("date", "date"),
   ("time", "time"),
   ("timestamp", "datetime"),
   ("driver", "driver"),
   ("operator", "driver"),
   ("load", "load"),
   ("cargo", "load"),
   ("weight", "weight"),
   ("destination", "destination"),
   ("dest", "destination"),
   ("origin", "origin"),
   ("src", "origin"),
   ("speed", "speed"),
   ("velocity", "speed"),
   ("fuel", "fuel"),
   ("mileage", "mileage"),
   ("odometer", "mileage"),
   ("temp", "temperature"),
   ("temperature", "temperature")]

/-- Scan of the rule table over an already-stripped-and-lowered header:
first entry whose key occurs as a substring wins, else the header itself
(main.py lines 106-112). -/
def analyzeCore (col_str : String) : String :=
  match replacements.find? (fun p => strContains col_str p.1) with
  | some p => p.2
  | none => col_str

/-- `ExcelMerger.analyze_column` (main.py lines 49-112).  `none` models a
null/NaN header (`pd.isna`). -/
def analyze_column (column_name : Option String) : String :=
  match column_name with
  | none => ""
  | some s => analyzeCore (pyStripLower s)

/-! ## Data model: loaded tables and standardized columns -/

/-- One loaded (file, sheet) table, as produced by `extract_dataframes`
(main.py lines 114-172): cleaned header strings and row data.  A cell is
`none` for null/NaN. -/
structure RawTable where
  file_path : String
  sheet_name : String
  columns : List String
  rows : List (List (Option String))
deriving DecidableEq, Repr

/-- Generic keep-first de-duplication by a key function, with an accumulator
of already-seen keys.  Instantiated for Python-dict key semantics and for
pandas `drop_duplicates(keep='first')`. -/
def dedupKeyed {α κ : Type} [DecidableEq κ] (key : α → κ) : List κ → List α → List α
  | _, [] => []
  | seen, a :: rest =>
    if key a ∈ seen then dedupKeyed key seen rest
    else a :: dedupKeyed key (key a :: seen) rest

/-- The `standardized_cols` dict built per sheet (main.py lines 148-153):
each column with a non-empty standardized name, keyed by original name
(dict insertion keeps the first position of a duplicate original name). -/
def std_pairs (t : RawTable) : List (String × String) :=
  dedupKeyed Prod.fst []
    (t.columns.filterMap (fun c =>
      if analyze_column (some c) = "" then none
      else some (c, analyze_column (some c))))

/-! ## Column Mapping Builder (`create_column_mapping`, main.py 174-201) -/

/-- The `all_std_columns` accumulation (lines 185-189), flattened: the list of
(standardized key, original column name) occurrences in load order. -/
def all_occurrences (tables : List RawTable) : List (String × String) :=
  tables.flatMap (fun t => (std_pairs t).map (fun p => (p.2, p.1)))

/-- The distinct standardized keys, in first-appearance order (Python dict
key order of `all_std_columns`). -/
def keysInOrder (occs : List (String × String)) : List String :=
  dedupKeyed id [] (occs.map Prod.fst)

/-- The original names recorded for a given standardized key. -/
def origsOf (occs : List (String × String)) (k : String) : List String :=
  occs.filterMap (fun p => if p.1 = k then some p.2 else none)

/-- `original_columns.count(o)` (line 197). -/
def countOcc (o : String) (origs : List String) : Nat := origs.countP (fun x => x = o)

/-- `max(set(original_columns), key=original_columns.count)` (line 197),
pinned to the deterministic rule of spec section 4.3: among the distinct
original names in first-appearance order, keep the first one reaching the
maximum occurrence count. -/
def mostCommon (origs : List String) : Option String :=
  match dedupKeyed id [] origs with
  | [] => none
  | u :: us =>
    some (us.foldl (fun b o => if countOcc b origs < countOcc o origs then o else b) u)

/-- `ExcelMerger.create_column_mapping` (main.py lines 174-201): one
(standardized key, chosen original name) pair per key with an occurrence. -/
def create_column_mapping (tables : List RawTable) : List (String × String) :=
  let occs := all_occurrences tables
  (keysInOrder occs).filterMap (fun k =>
    (mostCommon (origsOf occs k)).map (fun o => (k, o)))

/-! ## Merge Engine (`merge_dataframes`, main.py 203-267) -/

/-- A merged row: the ordered columns of one row of `standardized_df`, as
(column name, cell) pairs. -/
abbrev Row := List (String × Option String)

/-- pandas column assignment `df[k] = v` at row level: overwrite the cell of
an existing column in place, else append a new column. -/
def setCol (row : Row) (k : String) (v : Option String) : Row :=
  if row.any (fun p => p.1 == k) then
    row.map (fun p => if p.1 == k then (k, v) else p)
  else row ++ [(k, v)]

/-- Read a cell by column name (`some cell` when the column exists). -/
def getCell (row : Row) (k : String) : Option (Option String) :=
  (row.find? (fun p => p.1 == k)).map Prod.snd

/-- Characters after the last path separator, accumulating the current
component in reverse. -/
def afterLastSep : List Char → List Char → List Char
  | cur, [] => cur.reverse
  | cur, c :: cs => if c = '/' then afterLastSep [] cs else afterLastSep (c :: cur) cs

/-- `Path(file_path).name` (main.py line 243): base name after the last
path separator. -/
def baseName (p : String) : String := ⟨afterLastSep [] p.data⟩

/-- Index of the first element satisfying `p` (the Python `in` test and the
`for df_col in df.columns` scan of main.py lines 227-236). -/
def findIdxO {β : Type} (p : β → Bool) : List β → Option Nat
  | [] => none
  | a :: as => if p a then some 0 else (findIdxO p as).map (fun n => n + 1)

/-- Locate the source column for one mapping entry (main.py lines 222-236):
exact match on the chosen original name first, else the first column whose
standardized name equals the key; `none` means not found. -/
def findSrcIdx (t : RawTable) (std orig : String) : Option Nat :=
  match findIdxO (fun c => c = orig) t.columns with
  | some i => some i
  | none => findIdxO (fun c => analyze_column (some c) = std) t.columns

/-- The three provenance column names (main.py lines 243-245, 257-258). -/
def provNames : List String := ["source_file", "source_sheet", "merge_timestamp"]

/-- The data part of one row of the projected `standardized_df`: the loop
over the mapping entries (main.py lines 222-240), with null-fill for a key
that is not found.  Evaluated row-wise: copying a whole source column
(lines 228/234) writes, at each row, that row's cell of the source column;
`standardized_df[std_col] = np.nan` (line 240) writes null at each row. -/
def projBase (mapping : List (String × String)) (t : RawTable)
    (srcRow : List (Option String)) : Row :=
  mapping.foldl (fun acc p =>
    match findSrcIdx t p.1 p.2 with
    | some i => setCol acc p.1 (srcRow.getD i none)
    | none => setCol acc p.1 none) []

/-- Build one row of the projected `standardized_df` including the three
provenance assignments (main.py lines 220-245), for source row `srcRow`. -/
def projectRow (mapping : List (String × String)) (t : RawTable)
    (srcRow : List (Option String)) (ts : String) : Row :=
  setCol (setCol (setCol (projBase mapping t srcRow)
    "source_file" (some (baseName t.file_path)))
    "source_sheet" (some t.sheet_name))
    "merge_timestamp" (some ts)

/-- Whether any mapping entry finds a source column in the table (exact
match on the chosen original name, or normalized-key match): only then does
a Series get assigned to `standardized_df` (main.py lines 228/234),
establishing the block's row index. -/
def tableFound (mapping : List (String × String)) (t : RawTable) : Bool :=
  mapping.any (fun p => (findSrcIdx t p.1 p.2).isSome)

/-- The projected table for one loaded table.  When some mapping entry finds
a source column, the Series assignment gives `standardized_df` the table's
index and the block has one merged row per source row, all stamped with the
same `ts` (the single `datetime.now()` call of this loop iteration, main.py
line 245).  When no entry is found (e.g. an empty mapping), every
assignment — the `np.nan` fills of line 240 and the provenance writes of
lines 243-245 — is a scalar broadcast over the empty frame's empty index,
so the block keeps zero rows. -/
def project_table (mapping : List (String × String)) (t : RawTable) (ts : String) :
    List Row :=
  if tableFound mapping t then t.rows.map (fun r => projectRow mapping t r ts)
  else []

/-- Add a column name if not already present (pandas column-index growth). -/
def addName (cols : List String) (k : String) : List String :=
  if k ∈ cols then cols else cols ++ [k]

/-- The column index of every projected frame (hence of `master_df`): the
mapping keys in order, then the provenance names, with later assignments to
an existing name reusing its position. -/
def projColumns (mapping : List (String × String)) : List String :=
  ((mapping.map Prod.fst) ++ provNames).foldl addName []

/-- `data_columns` (main.py lines 257-258): the non-provenance columns of
`master_df`, the de-duplication subset. -/
def dataColumns (mapping : List (String × String)) : List String :=
  (projColumns mapping).filter (fun c => !provNames.contains c)

/-- The non-provenance part of a row: its restriction to `data_columns`. -/
def rowData (r : Row) : Row := r.filter (fun p => !provNames.contains p.1)

/-- The projection loop of main.py lines 216-247 followed by
`pd.concat(merged_data, ignore_index=True)` (line 251): one projected block
per table in loader order, the block of the `i`-th iteration stamped with
the `i`-th `datetime.now()` reading of the abstract clock. -/
def concatProjectedFrom (tables : List RawTable) (mapping : List (String × String))
    (clock : Nat → String) (i : Nat) : List Row :=
  match tables with
  | [] => []
  | t :: rest =>
    project_table mapping t (clock i) ++ concatProjectedFrom rest mapping clock (i + 1)

/-- All projected tables concatenated, clock readings starting at call 0. -/
def concatProjected (tables : List RawTable) (mapping : List (String × String))
    (clock : Nat → String) : List Row :=
  concatProjectedFrom tables mapping clock 0

/-- `drop_duplicates(subset=data_columns, keep='first')` (main.py line 261). -/
def dedupRows (rows : List Row) : List Row := dedupKeyed rowData [] rows

/-- `ExcelMerger.merge_dataframes` (main.py lines 203-267): concatenate all
projected tables; de-duplicate on the non-provenance columns only when at
least one such column exists (line 260); empty input gives an empty frame. -/
def merge_dataframes (tables : List RawTable) (mapping : List (String × String))
    (clock : Nat → String) : List Row :=
  if tables.isEmpty then []
  else if dataColumns mapping = [] then concatProjected tables mapping clock
  else dedupRows (concatProjected tables mapping clock)

/-- The caller-visible outcome of `merge_excel_files` (main.py 346-422):
`nothingToMerge` models every `return None, None` path ("no valid data" /
"no data to merge"), `merged` the successful path. -/
inductive MergeOutcome
  | nothingToMerge
  | merged (rows : List Row)
deriving DecidableEq, Repr

/-- The merge-pipeline core of `ExcelMerger.merge_excel_files`
(main.py lines 378-401), starting from the loaded tables: build the mapping,
merge, and report `nothingToMerge` when no tables were loaded or the merged
frame is empty. -/
def merge_excel_files_core (tables : List RawTable) (clock : Nat → String) :
    MergeOutcome :=
  if tables.isEmpty then .nothingToMerge
  else
    let mapping := create_column_mapping tables
    let master := merge_dataframes tables mapping clock
    if master.isEmpty then .nothingToMerge else .merged master

/-! ## Helper lemmas: first-match scanning -/

theorem find?_none_of {α : Type} (p : α → Bool) (l : List α)
    (h : ∀ a ∈ l, p a = false) : l.find? p = none := by
  induction l with
  | nil => rfl
  | cons a as ih =>
    have ha := h a (List.mem_cons_self a as)
    simp only [List.find?, ha]
    exact ih (fun x hx => h x (List.mem_cons_of_mem a hx))

theorem find?_first {α : Type} (p : α → Bool) (l : List α) (i : Nat)
    (hi : i < l.length) (hp : p (l.get ⟨i, hi⟩) = true)
    (hbefore : ∀ j (hj : j < l.length), j < i → p (l.get ⟨j, hj⟩) = false) :
    l.find? p = some (l.get ⟨i, hi⟩) := by
  induction l generalizing i with
  | nil => exact absurd hi (by simp)
  | cons a as ih =>
    cases i with
    | zero =>
      simp only [List.get] at hp ⊢
      simp [List.find?, hp]
    | succ n =>
      have ha : p a = false := hbefore 0 (by simp) (Nat.succ_pos n)
      simp only [List.get] at hp ⊢
      simp only [List.find?, ha]
      exact ih n (Nat.lt_of_succ_lt_succ hi) hp
        (fun j hj hlt => hbefore (j + 1) (Nat.succ_lt_succ hj) (Nat.succ_lt_succ hlt))

theorem find?_eq_some_first {α : Type} (p : α → Bool) (l : List α) (b : α)
    (h : l.find? p = some b) :
    ∃ i, ∃ hi : i < l.length, l.get ⟨i, hi⟩ = b ∧
      ∀ j (hj : j < l.length), j < i → p (l.get ⟨j, hj⟩) = false := by
  induction l with
  | nil => simp [List.find?] at h
  | cons a as ih =>
    rcases hpa : p a with _ | _
    · have h' : as.find? p = some b := by
        simpa [List.find?, hpa] using h
      obtain ⟨i, hi, hget, hbef⟩ := ih h'
      refine ⟨i + 1, Nat.succ_lt_succ hi, hget, ?_⟩
      intro j hj hlt
      cases j with
      | zero => exact hpa
      | succ m => exact hbef m (Nat.lt_of_succ_lt_succ hj) (Nat.lt_of_succ_lt_succ hlt)
    · have hb : b = a := by
        have : some a = some b := by simpa [List.find?, hpa] using h
        exact (Option.some.injEq _ _ ▸ this).symm
      refine ⟨0, by simp, by simp [hb], ?_⟩
      intro j hj hlt
      exact absurd hlt (Nat.not_lt_zero j)

/-! ## Helper lemmas: substring containment -/

theorem leadsList_iff (n h : List Char) : leadsList n h = true ↔ ∃ v, h = n ++ v := by
  induction n generalizing h with
  | nil => simp [leadsList]
  | cons a as ih =>
    cases h with
    | nil => simp [leadsList]
    | cons b bs =>
      simp only [leadsList, Bool.and_eq_true, beq_iff_eq, ih, List.cons_append,
        List.cons.injEq]
      constructor
      · rintro ⟨rfl, v, rfl⟩
        exact ⟨v, rfl, rfl⟩
      · rintro ⟨v, rfl, rfl⟩
        exact ⟨rfl, v, rfl⟩

theorem containsList_iff (n h : List Char) :
    containsList n h = true ↔ ∃ u v, h = u ++ n ++ v := by
  induction h with
  | nil =>
    simp only [containsList, List.isEmpty_iff]
    constructor
    · rintro rfl
      exact ⟨[], [], rfl⟩
    · rintro ⟨u, v, huv⟩
      rcases u with _ | ⟨c, u⟩ <;> rcases n with _ | ⟨d, n⟩ <;> simp_all
  | cons c cs ih =>
    simp only [containsList, Bool.or_eq_true, leadsList_iff, ih]
    constructor
    · rintro (⟨v, hv⟩ | ⟨u, v, hv⟩)
      · exact ⟨[], v, by simpa using hv⟩
      · exact ⟨c :: u, v, by simp [hv]⟩
    · rintro ⟨u, v, huv⟩
      rcases u with _ | ⟨d, u⟩
      · exact Or.inl ⟨v, by simpa using huv⟩
      · simp only [List.cons_append, List.cons.injEq] at huv
        exact Or.inr ⟨u, v, huv.2⟩

theorem containsList_trans {a b c : List Char} (hab : containsList a b = true)
    (hbc : containsList b c = true) : containsList a c = true := by
  rw [containsList_iff] at hab hbc ⊢
  obtain ⟨u1, v1, rfl⟩ := hab
  obtain ⟨u2, v2, rfl⟩ := hbc
  exact ⟨u2 ++ u1, v1 ++ v2, by simp⟩

theorem strContains_trans {a b c : String} (h1 : strContains b a = true)
    (h2 : strContains c b = true) : strContains c a = true :=
  containsList_trans h1 h2

/-! ## Helper lemmas: ASCII case folding -/

theorem lowerTable_snd_fix :
    ∀ p ∈ lowerTable, lowerTable.find? (fun q => q.1 == p.2) = none := by decide

theorem lowerTable_nonspace :
    ∀ p ∈ lowerTable, isSpace p.1 = false ∧ isSpace p.2 = false := by decide

theorem upperTable_lower_eq :
    ∀ p ∈ upperTable, lowerChar p.2 = lowerChar p.1 := by decide

theorem upperTable_nonspace :
    ∀ p ∈ upperTable, isSpace p.1 = false ∧ isSpace p.2 = false := by decide

theorem lowerChar_idem (c : Char) : lowerChar (lowerChar c) = lowerChar c := by
  cases hf : lowerTable.find? (fun q => q.1 == c) with
  | none =>
    have h1 : lowerChar c = c := by simp [lowerChar, hf]
    simp [h1]
  | some p =>
    have h1 : lowerChar c = p.2 := by simp [lowerChar, hf]
    have h2 : lowerChar p.2 = p.2 := by
      simp [lowerChar, lowerTable_snd_fix p (List.mem_of_find?_eq_some hf)]
    simp [h1, h2]

theorem isSpace_lowerChar (c : Char) : isSpace (lowerChar c) = isSpace c := by
  cases hf : lowerTable.find? (fun q => q.1 == c) with
  | none => simp [lowerChar, hf]
  | some p =>
    have hpmem := List.mem_of_find?_eq_some hf
    have hpc : p.1 = c := by simpa using List.find?_some hf
    have h1 : lowerChar c = p.2 := by simp [lowerChar, hf]
    rw [h1, (lowerTable_nonspace p hpmem).2, ← hpc, (lowerTable_nonspace p hpmem).1]

theorem lowerChar_upperChar (c : Char) : lowerChar (upperChar c) = lowerChar c := by
  cases hf : upperTable.find? (fun q => q.1 == c) with
  | none =>
    have h1 : upperChar c = c := by simp [upperChar, hf]
    rw [h1]
  | some p =>
    have hpmem := List.mem_of_find?_eq_some hf
    have hpc : p.1 = c := by simpa using List.find?_some hf
    have h1 : upperChar c = p.2 := by simp [upperChar, hf]
    rw [h1, upperTable_lower_eq p hpmem, hpc]

theorem isSpace_upperChar (c : Char) : isSpace (upperChar c) = isSpace c := by
  cases hf : upperTable.find? (fun q => q.1 == c) with
  | none => simp [upperChar, hf]
  | some p =>
    have hpmem := List.mem_of_find?_eq_some hf
    have hpc : p.1 = c := by simpa using List.find?_some hf
    have h1 : upperChar c = p.2 := by simp [upperChar, hf]
    rw [h1, (upperTable_nonspace p hpmem).2, ← hpc, (upperTable_nonspace p hpmem).1]

/-! ## Helper lemmas: stripping -/

theorem lstrip_cons_space {c : Char} (hc : isSpace c = true) (cs : List Char) :
    lstrip (c :: cs) = lstrip cs := by simp [lstrip, hc]

theorem lstrip_cons_nonspace {c : Char} (hc : isSpace c = false) (cs : List Char) :
    lstrip (c :: cs) = c :: cs := by simp [lstrip, hc]

theorem lstrip_length_le (l : List Char) : (lstrip l).length ≤ l.length := by
  induction l with
  | nil => exact Nat.le_refl 0
  | cons c cs ih =>
    cases hc : isSpace c with
    | true => rw [lstrip_cons_space hc]; exact Nat.le_succ_of_le ih
    | false => rw [lstrip_cons_nonspace hc]

theorem lstrip_idem (l : List Char) : lstrip (lstrip l) = lstrip l := by
  induction l with
  | nil => rfl
  | cons c cs ih =>
    cases hc : isSpace c with
    | true => rw [lstrip_cons_space hc, ih]
    | false => rw [lstrip_cons_nonspace hc, lstrip_cons_nonspace hc]

theorem rstrip_cons (c : Char) (cs : List Char) :
    rstrip (c :: cs) = if (rstrip cs).isEmpty && isSpace c then [] else c :: rstrip cs :=
  rfl

theorem rstrip_idem (l : List Char) : rstrip (rstrip l) = rstrip l := by
  induction l with
  | nil => rfl
  | cons c cs ih =>
    rw [rstrip_cons]
    by_cases h : ((rstrip cs).isEmpty && isSpace c) = true
    · rw [if_pos h]
      rfl
    · rw [if_neg h, rstrip_cons, ih, if_neg h]

theorem lstrip_rstrip {l : List Char} (h : lstrip l = l) :
    lstrip (rstrip l) = rstrip l := by
  cases l with
  | nil => rfl
  | cons c cs =>
    have hc : isSpace c = false := by
      cases hc : isSpace c with
      | false => rfl
      | true =>
        rw [lstrip_cons_space hc] at h
        have := lstrip_length_le cs
        rw [h] at this
        exact absurd this (by simp [Nat.lt_irrefl])
    rw [rstrip_cons, if_neg (by simp [hc]), lstrip_cons_nonspace hc]

theorem stripChars_idem (l : List Char) : stripChars (stripChars l) = stripChars l := by
  unfold stripChars
  rw [lstrip_rstrip (lstrip_idem l), rstrip_idem]

theorem isEmpty_map {α β : Type} (f : α → β) (l : List α) :
    (l.map f).isEmpty = l.isEmpty := by cases l <;> rfl

theorem lstrip_map (f : Char → Char) (hf : ∀ c, isSpace (f c) = isSpace c)
    (l : List Char) : lstrip (l.map f) = (lstrip l).map f := by
  induction l with
  | nil => rfl
  | cons c cs ih =>
    cases hc : isSpace c with
    | true =>
      rw [List.map_cons, lstrip_cons_space (by rw [hf, hc]), ih, lstrip_cons_space hc]
    | false =>
      rw [List.map_cons, lstrip_cons_nonspace (by rw [hf, hc]),
        lstrip_cons_nonspace hc, List.map_cons]

theorem rstrip_map (f : Char → Char) (hf : ∀ c, isSpace (f c) = isSpace c)
    (l : List Char) : rstrip (l.map f) = (rstrip l).map f := by
  induction l with
  | nil => rfl
  | cons c cs ih =>
    rw [List.map_cons, rstrip_cons, ih, isEmpty_map, hf, rstrip_cons]
    cases h : (rstrip cs).isEmpty && isSpace c with
    | true => simp
    | false => simp

theorem stripChars_map (f : Char → Char) (hf : ∀ c, isSpace (f c) = isSpace c)
    (l : List Char) : stripChars (l.map f) = (stripChars l).map f := by
  unfold stripChars
  rw [lstrip_map f hf, rstrip_map f hf]

theorem lstrip_allspace {w : List Char} (hw : ∀ c ∈ w, isSpace c = true) :
    lstrip w = [] := by
  induction w with
  | nil => rfl
  | cons c cs ih =>
    rw [lstrip_cons_space (hw c (List.mem_cons_self c cs))]
    exact ih (fun x hx => hw x (List.mem_cons_of_mem c hx))

theorem lstrip_append_allspace {w : List Char} (l : List Char)
    (hw : ∀ c ∈ w, isSpace c = true) : lstrip (w ++ l) = lstrip l := by
  induction w with
  | nil => rfl
  | cons c cs ih =>
    rw [List.cons_append, lstrip_cons_space (hw c (List.mem_cons_self c cs))]
    exact ih (fun x hx => hw x (List.mem_cons_of_mem c hx))

theorem rstrip_allspace {w : List Char} (hw : ∀ c ∈ w, isSpace c = true) :
    rstrip w = [] := by
  induction w with
  | nil => rfl
  | cons c cs ih =>
    rw [rstrip_cons, ih (fun x hx => hw x (List.mem_cons_of_mem c hx)),
      hw c (List.mem_cons_self c cs)]
    rfl

theorem rstrip_append_allspace (l : List Char) {w : List Char}
    (hw : ∀ c ∈ w, isSpace c = true) : rstrip (l ++ w) = rstrip l := by
  induction l with
  | nil => exact rstrip_allspace hw
  | cons c cs ih => rw [List.cons_append, rstrip_cons, ih, rstrip_cons]

theorem stripChars_append_right (l : List Char) {w : List Char}
    (hw : ∀ c ∈ w, isSpace c = true) : stripChars (l ++ w) = stripChars l := by
  induction l with
  | nil =>
    show stripChars w = stripChars []
    unfold stripChars
    rw [lstrip_allspace hw]
    rfl
  | cons c cs ih =>
    show stripChars (c :: (cs ++ w)) = stripChars (c :: cs)
    unfold stripChars
    cases hc : isSpace c with
    | true =>
      rw [lstrip_cons_space hc, lstrip_cons_space hc]
      exact ih
    | false =>
      rw [lstrip_cons_nonspace hc, lstrip_cons_nonspace hc,
        ← List.cons_append, rstrip_append_allspace (c :: cs) hw]

theorem stripChars_append_left {w : List Char} (l : List Char)
    (hw : ∀ c ∈ w, isSpace c = true) : stripChars (w ++ l) = stripChars l := by
  unfold stripChars
  rw [lstrip_append_allspace l hw]

/-! ## Helper lemmas: `pyStripLower` -/

theorem data_pyStripLower (s : String) :
    (pyStripLower s).data = (stripChars s.data).map lowerChar := rfl

theorem pyStripLower_idem (s : String) :
    pyStripLower (pyStripLower s) = pyStripLower s := by
  apply String.ext
  show (stripChars ((stripChars s.data).map lowerChar)).map lowerChar
      = (stripChars s.data).map lowerChar
  rw [stripChars_map lowerChar isSpace_lowerChar, List.map_map, stripChars_idem]
  exact List.map_congr_left (fun c _ => lowerChar_idem c)

theorem pyStripLower_asciiUpper (s : String) :
    pyStripLower (asciiUpper s) = pyStripLower s := by
  apply String.ext
  show (stripChars (s.data.map upperChar)).map lowerChar = _
  rw [stripChars_map upperChar isSpace_upperChar, List.map_map]
  exact List.map_congr_left (fun c _ => lowerChar_upperChar c)

theorem pyStripLower_pad (w1 s w2 : String)
    (h1 : ∀ c ∈ w1.data, isSpace c = true) (h2 : ∀ c ∈ w2.data, isSpace c = true) :
    pyStripLower (w1 ++ s ++ w2) = pyStripLower s := by
  apply String.ext
  rw [data_pyStripLower, data_pyStripLower, String.data_append, String.data_append,
    stripChars_append_right _ h2, stripChars_append_left _ h1]

/-! ## Claim C3: the normalizer's case analysis -/

/-- C3: for every input header value, `analyze_column` returns the empty
string on a null/NaN input; otherwise the canonical key of the first entry,
in the fixed table order, whose substring occurs anywhere in the trimmed
lower-cased header; otherwise (no substring matches) the trimmed lower-cased
header string itself. -/
theorem claim_C3_normalizer_cases :
    analyze_column none = "" ∧
    (∀ s : String,
      (∀ p ∈ replacements, strContains (pyStripLower s) p.1 = false) →
      analyze_column (some s) = pyStripLower s) ∧
    (∀ (s : String) (i : Nat) (hi : i < replacements.length),
      strContains (pyStripLower s) (replacements.get ⟨i, hi⟩).1 = true →
      (∀ (j : Nat) (hj : j < replacements.length), j < i →
        strContains (pyStripLower s) (replacements.get ⟨j, hj⟩).1 = false) →
      analyze_column (some s) = (replacements.get ⟨i, hi⟩).2) := by
  refine ⟨rfl, ?_, ?_⟩
  · intro s hall
    show analyzeCore (pyStripLower s) = pyStripLower s
    unfold analyzeCore
    rw [find?_none_of _ _ (fun p hp => hall p hp)]
  · intro s i hi hmatch hbefore
    show analyzeCore (pyStripLower s) = (replacements.get ⟨i, hi⟩).2
    unfold analyzeCore
    rw [find?_first (fun p => strContains (pyStripLower s) p.1) replacements i hi
      hmatch hbefore]

/-- Witness for C3: the header `" My Truck "` trims and lower-cases to
`"my truck"`, whose first matching table entry is `("truck", "truck")`. -/
theorem claim_C3_normalizer_cases_witness :
    analyze_column (some " My Truck ") = "truck" :=
  (claim_C3_normalizer_cases.2.2 " My Truck " 0 (by decide) (by decide)
    (fun j hj hlt => absurd hlt (Nat.not_lt_zero j))).trans (by decide)

/-! ## Claim C4: concrete normalizations, idempotence, insensitivity -/

/-- Every canonical value in the rule table is already stripped and
lower-cased. -/
theorem replacements_snd_stripped :
    ∀ i : Fin replacements.length,
      pyStripLower (replacements.get i).2 = (replacements.get i).2 := by decide

/-- Every rule-table entry either has a canonical value that is a fixed
point of the scan, or is shadowed: some earlier entry's key is a substring
of its key, so it can never be the first match. -/
theorem replacements_fix_or_shadow :
    ∀ i : Fin replacements.length,
      analyzeCore (replacements.get i).2 = (replacements.get i).2 ∨
      ∃ j : Fin replacements.length, j.val < i.val ∧
        strContains (replacements.get i).1 (replacements.get j).1 = true := by decide

/-- The normalizer is idempotent on every header string. -/
theorem analyze_idem (s : String) :
    analyze_column (some (analyze_column (some s))) = analyze_column (some s) := by
  show analyzeCore (pyStripLower (analyzeCore (pyStripLower s)))
      = analyzeCore (pyStripLower s)
  cases hf : replacements.find? (fun p => strContains (pyStripLower s) p.1) with
  | none =>
    have h1 : analyzeCore (pyStripLower s) = pyStripLower s := by
      unfold analyzeCore
      rw [hf]
    rw [h1, pyStripLower_idem, h1]
  | some p =>
    have h1 : analyzeCore (pyStripLower s) = p.2 := by
      unfold analyzeCore
      rw [hf]
    rw [h1]
    obtain ⟨i, hi, hget, hbef⟩ := find?_eq_some_first _ _ _ hf
    have hD0 := replacements_snd_stripped ⟨i, hi⟩
    rw [hget] at hD0
    rw [hD0]
    rcases replacements_fix_or_shadow ⟨i, hi⟩ with hfix | ⟨j, hjlt, hsub⟩
    · rw [hget] at hfix
      exact hfix
    · exfalso
      rw [hget] at hsub
      have hcp : strContains (pyStripLower s) p.1 = true := by
        have h := List.find?_some hf
        exact h
      have hcj : strContains (pyStripLower s) (replacements.get j).1 = true :=
        strContains_trans hsub hcp
      have hjf := hbef j.val j.isLt hjlt
      rw [Fin.eta] at hjf
      rw [hcj] at hjf
      exact Bool.noConfusion hjf

/-- C4 counterexample: the claim says `"Truck_No"` normalizes to
`"truck_number"` and headers containing `"timestamp"` to `"datetime"`; the
code returns `"truck"` and `"time"`, because the `'truck'` and `'time'`
entries precede `'truck_no'` and `'timestamp'` in the scan order. -/
theorem claim_C4_counterexample :
    analyze_column (some "Truck_No") = "truck" ∧ "truck" ≠ "truck_number" ∧
    analyze_column (some "timestamp") = "time" ∧ "time" ≠ "datetime" := by decide

/-- C4 (amended): under scan-order precedence `"Truck_No"` and `"TRK#"` both
normalize to `"truck"` (the `'truck'` / `'trk'` entries win), the header
`"Timestamp"` normalizes to `"time"` (the `'time'` entry precedes
`'timestamp'`), and `analyze_column` is idempotent and case/whitespace
insensitive. -/
theorem claim_C4_examples_and_invariance :
    analyze_column (some "Truck_No") = "truck" ∧
    analyze_column (some "TRK#") = "truck" ∧
    analyze_column (some "Timestamp") = "time" ∧
    (∀ s : String,
      analyze_column (some (analyze_column (some s))) = analyze_column (some s)) ∧
    (∀ s : String, analyze_column (some (asciiUpper s)) = analyze_column (some s)) ∧
    (∀ w1 s w2 : String, (∀ c ∈ w1.data, isSpace c = true) →
      (∀ c ∈ w2.data, isSpace c = true) →
      analyze_column (some (w1 ++ s ++ w2)) = analyze_column (some s)) := by
  refine ⟨by decide, by decide, by decide, analyze_idem, ?_, ?_⟩
  · intro s
    show analyzeCore (pyStripLower (asciiUpper s)) = analyzeCore (pyStripLower s)
    rw [pyStripLower_asciiUpper]
  · intro w1 s w2 h1 h2
    show analyzeCore (pyStripLower (w1 ++ s ++ w2)) = analyzeCore (pyStripLower s)
    rw [pyStripLower_pad w1 s w2 h1 h2]

/-- Witness for C4 (amended): padding `"Truck#"` with whitespace does not
change its canonical key. -/
theorem claim_C4_examples_and_invariance_witness :
    analyze_column (some ("  " ++ "Truck#" ++ " ")) = analyze_column (some "Truck#") :=
  claim_C4_examples_and_invariance.2.2.2.2.2 "  " "Truck#" " "
    (by decide) (by decide)

/-! ## Helper lemmas: keep-first de-duplication -/

section DedupKeyed

variable {α κ : Type} [DecidableEq κ] (key : α → κ)

theorem dedupKeyed_sublist (seen : List κ) (l : List α) :
    (dedupKeyed key seen l).Sublist l := by
  induction l generalizing seen with
  | nil => exact List.Sublist.refl []
  | cons a rest ih =>
    simp only [dedupKeyed]
    by_cases h : key a ∈ seen
    · rw [if_pos h]
      exact (ih seen).cons a
    · rw [if_neg h]
      exact (ih _).cons₂ a

theorem mem_of_mem_dedupKeyed {seen : List κ} {l : List α} {a : α}
    (h : a ∈ dedupKeyed key seen l) : a ∈ l :=
  (dedupKeyed_sublist key seen l).subset h

theorem key_not_seen_of_mem_dedupKeyed {seen : List κ} {l : List α} {b : α}
    (h : b ∈ dedupKeyed key seen l) : key b ∉ seen := by
  induction l generalizing seen with
  | nil => simp [dedupKeyed] at h
  | cons a rest ih =>
    simp only [dedupKeyed] at h
    by_cases ha : key a ∈ seen
    · rw [if_pos ha] at h
      exact ih h
    · rw [if_neg ha] at h
      rcases List.mem_cons.mp h with rfl | h'
      · exact ha
      · intro hmem
        exact ih h' (List.mem_cons_of_mem _ hmem)

theorem dedupKeyed_pairwise (seen : List κ) (l : List α) :
    (dedupKeyed key seen l).Pairwise (fun x y => key x ≠ key y) := by
  induction l generalizing seen with
  | nil => exact List.Pairwise.nil
  | cons a rest ih =>
    simp only [dedupKeyed]
    by_cases ha : key a ∈ seen
    · rw [if_pos ha]
      exact ih seen
    · rw [if_neg ha]
      refine List.Pairwise.cons ?_ (ih _)
      intro b hb heq
      exact key_not_seen_of_mem_dedupKeyed key hb (by rw [← heq]; exact List.mem_cons_self _ _)

theorem dedupKeyed_covers {l : List α} (seen : List κ) :
    ∀ a ∈ l, key a ∈ seen ∨ ∃ b ∈ dedupKeyed key seen l, key b = key a := by
  induction l generalizing seen with
  | nil =>
    intro a ha
    exact absurd ha (List.not_mem_nil a)
  | cons c rest ih =>
    intro a ha
    simp only [dedupKeyed]
    by_cases hc : key c ∈ seen
    · rw [if_pos hc]
      rcases List.mem_cons.mp ha with rfl | ha'
      · exact Or.inl hc
      · exact ih seen a ha'
    · rw [if_neg hc]
      rcases List.mem_cons.mp ha with rfl | ha'
      · exact Or.inr ⟨a, List.mem_cons_self _ _, rfl⟩
      · rcases ih (key c :: seen) a ha' with hseen | ⟨b, hb, hkey⟩
        · rcases List.mem_cons.mp hseen with heq | hseen'
          · exact Or.inr ⟨c, List.mem_cons_self _ _, heq.symm⟩
          · exact Or.inl hseen'
        · exact Or.inr ⟨b, List.mem_cons_of_mem c hb, hkey⟩

theorem find?_cons_true {β : Type} (p : β → Bool) (a : β) (l : List β)
    (h : p a = true) : (a :: l).find? p = some a := by
  simp [List.find?, h]

theorem find?_cons_false {β : Type} (p : β → Bool) (a : β) (l : List β)
    (h : p a = false) : (a :: l).find? p = l.find? p := by
  simp [List.find?, h]

theorem dedupKeyed_find_first {seen : List κ} {l : List α} :
    ∀ b ∈ dedupKeyed key seen l, l.find? (fun x => key x == key b) = some b := by
  induction l generalizing seen with
  | nil =>
    intro b hb
    simp [dedupKeyed] at hb
  | cons a rest ih =>
    intro b hb
    simp only [dedupKeyed] at hb
    by_cases ha : key a ∈ seen
    · rw [if_pos ha] at hb
      have hne : (key a == key b) = false := by
        simp only [beq_eq_false_iff_ne, ne_eq]
        intro heq
        exact key_not_seen_of_mem_dedupKeyed key hb (heq ▸ ha)
      rw [find?_cons_false (fun x => key x == key b) a rest hne]
      exact ih b hb
    · rw [if_neg ha] at hb
      rcases List.mem_cons.mp hb with rfl | hb'
      · exact find?_cons_true (fun x => key x == key b) b rest (by simp)
      · have hkb := key_not_seen_of_mem_dedupKeyed key hb'
        have hne : (key a == key b) = false := by
          simp only [beq_eq_false_iff_ne, ne_eq]
          intro heq
          exact hkb (by rw [← heq]; exact List.mem_cons_self _ _)
        rw [find?_cons_false (fun x => key x == key b) a rest hne]
        exact ih b hb'

/-- The seen-keys accumulator after one pass of `dedupKeyed`. -/
def seenAfter : List κ → List α → List κ
  | seen, [] => seen
  | seen, a :: rest =>
    if key a ∈ seen then seenAfter seen rest else seenAfter (key a :: seen) rest

theorem dedupKeyed_append (seen : List κ) (l1 l2 : List α) :
    dedupKeyed key seen (l1 ++ l2)
      = dedupKeyed key seen l1 ++ dedupKeyed key (seenAfter key seen l1) l2 := by
  induction l1 generalizing seen with
  | nil => rfl
  | cons a rest ih =>
    rw [List.cons_append]
    by_cases ha : key a ∈ seen
    · simp only [dedupKeyed, seenAfter, if_pos ha]
      exact ih seen
    · simp only [dedupKeyed, seenAfter, if_neg ha]
      rw [ih (key a :: seen), List.cons_append]

theorem seen_sub_seenAfter (seen : List κ) (l : List α) :
    seen ⊆ seenAfter key seen l := by
  induction l generalizing seen with
  | nil => exact fun x h => h
  | cons a rest ih =>
    simp only [seenAfter]
    by_cases ha : key a ∈ seen
    · rw [if_pos ha]
      exact ih seen
    · rw [if_neg ha]
      exact fun x hx => ih (key a :: seen) (List.mem_cons_of_mem _ hx)

theorem key_mem_seenAfter (seen : List κ) {l : List α} {a : α} (ha : a ∈ l) :
    key a ∈ seenAfter key seen l := by
  induction l generalizing seen with
  | nil => exact absurd ha (List.not_mem_nil a)
  | cons c rest ih =>
    simp only [seenAfter]
    by_cases hc : key c ∈ seen
    · rw [if_pos hc]
      rcases List.mem_cons.mp ha with rfl | ha'
      · exact seen_sub_seenAfter key seen rest hc
      · exact ih seen ha'
    · rw [if_neg hc]
      rcases List.mem_cons.mp ha with rfl | ha'
      · exact seen_sub_seenAfter key _ rest (List.mem_cons_self _ _)
      · exact ih _ ha'

theorem dedupKeyed_nil_of_seen {seen : List κ} {l : List α}
    (h : ∀ a ∈ l, key a ∈ seen) : dedupKeyed key seen l = [] := by
  induction l with
  | nil => rfl
  | cons a rest ih =>
    simp only [dedupKeyed]
    rw [if_pos (h a (List.mem_cons_self _ _))]
    exact ih (fun x hx => h x (List.mem_cons_of_mem _ hx))

theorem dedupKeyed_append_absorb (seen : List κ) (l1 l2 : List α)
    (h : ∀ a ∈ l2, ∃ b ∈ l1, key b = key a) :
    dedupKeyed key seen (l1 ++ l2) = dedupKeyed key seen l1 := by
  rw [dedupKeyed_append]
  have h2 : dedupKeyed key (seenAfter key seen l1) l2 = [] := by
    apply dedupKeyed_nil_of_seen
    intro a ha
    obtain ⟨b, hb, hkey⟩ := h a ha
    exact hkey ▸ key_mem_seenAfter key seen hb
  rw [h2, List.append_nil]

theorem dedupKeyed_map_key_congr {l1 l2 : List α} (seen : List κ)
    (h : l1.map key = l2.map key) :
    (dedupKeyed key seen l1).map key = (dedupKeyed key seen l2).map key := by
  induction l1 generalizing l2 seen with
  | nil =>
    have h2 : l2 = [] := by
      cases l2 with
      | nil => rfl
      | cons b bs => simp at h
    rw [h2]
  | cons a rest ih =>
    cases l2 with
    | nil => simp at h
    | cons b bs =>
      simp only [List.map_cons, List.cons.injEq] at h
      obtain ⟨hab, hrest⟩ := h
      simp only [dedupKeyed]
      by_cases ha : key a ∈ seen
      · rw [if_pos ha, if_pos (hab ▸ ha), ih seen hrest]
      · rw [if_neg ha, if_neg (fun hb => ha (hab.symm ▸ hb)), List.map_cons,
          List.map_cons, hab, ih (key b :: seen) hrest]

end DedupKeyed

/-! ## Claim C10: whitespace-only headers are excluded like null headers -/

/-- Every pair recorded in a sheet's standardized-column set is a column of
the sheet together with its non-empty standardized name. -/
theorem std_pairs_spec (t : RawTable) :
    ∀ p ∈ std_pairs t,
      p.1 ∈ t.columns ∧ p.2 = analyze_column (some p.1) ∧ p.2 ≠ "" := by
  intro p hp
  have hp' := mem_of_mem_dedupKeyed Prod.fst hp
  rw [List.mem_filterMap] at hp'
  obtain ⟨c, hc, heq⟩ := hp'
  by_cases hz : analyze_column (some c) = ""
  · rw [if_pos hz] at heq
    exact Option.noConfusion heq
  · rw [if_neg hz] at heq
    have hpe : (c, analyze_column (some c)) = p := Option.some.inj heq
    rw [← hpe]
    exact ⟨hc, rfl, hz⟩

/-- C10 (implicit): a column header that is a string consisting only of
whitespace (or the empty string) normalizes to the empty string — the
trimmed lower-cased result is empty and contains no substring of the rule
table — exactly like a null/NaN header, and such a column is excluded from
the standardized-column set of every sheet and therefore contributes no
occurrence to the ColumnMapping.  All functions involved are total, so this
path never raises. -/
theorem claim_C10_whitespace_header (s : String)
    (hs : ∀ c ∈ s.data, isSpace c = true) :
    analyze_column (some s) = "" ∧
    analyze_column none = "" ∧
    (∀ t : RawTable, ∀ p ∈ std_pairs t, p.1 ≠ s) ∧
    (∀ tables : List RawTable, ∀ q ∈ all_occurrences tables, q.2 ≠ s) := by
  have hempty : analyze_column (some s) = "" := by
    show analyzeCore (pyStripLower s) = ""
    have h1 : pyStripLower s = "" := by
      apply String.ext
      show (stripChars s.data).map lowerChar = ([] : List Char)
      unfold stripChars
      rw [lstrip_allspace hs]
      rfl
    rw [h1]
    decide
  have hstd : ∀ t : RawTable, ∀ p ∈ std_pairs t, p.1 ≠ s := by
    intro t p hp hps
    obtain ⟨hmem, hval, hnz⟩ := std_pairs_spec t p hp
    rw [hps] at hval
    exact hnz (hval.trans hempty)
  refine ⟨hempty, rfl, hstd, ?_⟩
  intro tables q hq hqs
  unfold all_occurrences at hq
  rw [List.mem_flatMap] at hq
  obtain ⟨t, ht, hq'⟩ := hq
  rw [List.mem_map] at hq'
  obtain ⟨p, hp, hpq⟩ := hq'
  apply hstd t p hp
  rw [← hqs, ← hpq]

/-- Witness for C10: the two-space header is excluded. -/
theorem claim_C10_whitespace_header_witness :
    analyze_column (some "  ") = "" :=
  (claim_C10_whitespace_header "  " (by decide)).1

/-! ## Claim C8: completeness and maximality of the column mapping -/

theorem countOcc_append (o : String) (l1 l2 : List String) :
    countOcc o (l1 ++ l2) = countOcc o l1 + countOcc o l2 :=
  List.countP_append (fun x => x = o) l1 l2

theorem foldl_best_mem (origs us : List String) (u : String) :
    us.foldl (fun b o => if countOcc b origs < countOcc o origs then o else b) u = u ∨
    us.foldl (fun b o => if countOcc b origs < countOcc o origs then o else b) u ∈ us := by
  induction us generalizing u with
  | nil => exact Or.inl rfl
  | cons v vs ih =>
    simp only [List.foldl_cons]
    by_cases h : countOcc u origs < countOcc v origs
    · rw [if_pos h]
      rcases ih v with h1 | h1
      · exact Or.inr (by rw [h1]; exact List.mem_cons_self v vs)
      · exact Or.inr (List.mem_cons_of_mem v h1)
    · rw [if_neg h]
      rcases ih u with h1 | h1
      · exact Or.inl h1
      · exact Or.inr (List.mem_cons_of_mem v h1)

theorem foldl_best_ge (origs us : List String) (u : String) :
    countOcc u origs ≤
      countOcc (us.foldl
        (fun b o => if countOcc b origs < countOcc o origs then o else b) u) origs ∧
    ∀ v ∈ us, countOcc v origs ≤
      countOcc (us.foldl
        (fun b o => if countOcc b origs < countOcc o origs then o else b) u) origs := by
  induction us generalizing u with
  | nil =>
    refine ⟨Nat.le_refl _, ?_⟩
    intro v hv
    exact absurd hv (List.not_mem_nil v)
  | cons v vs ih =>
    simp only [List.foldl_cons]
    by_cases h : countOcc u origs < countOcc v origs
    · rw [if_pos h]
      obtain ⟨h1, h2⟩ := ih v
      refine ⟨Nat.le_trans (Nat.le_of_lt h) h1, ?_⟩
      intro x hx
      rcases List.mem_cons.mp hx with rfl | hx'
      · exact h1
      · exact h2 x hx'
    · rw [if_neg h]
      obtain ⟨h1, h2⟩ := ih u
      refine ⟨h1, ?_⟩
      intro x hx
      rcases List.mem_cons.mp hx with rfl | hx'
      · exact Nat.le_trans (Nat.le_of_not_lt h) h1
      · exact h2 x hx'

theorem mostCommon_spec (origs : List String) (hne : origs ≠ []) :
    ∃ o, mostCommon origs = some o ∧ o ∈ origs ∧
      ∀ x ∈ origs, countOcc x origs ≤ countOcc o origs := by
  unfold mostCommon
  cases hd : dedupKeyed id ([] : List String) origs with
  | nil =>
    exfalso
    cases origs with
    | nil => exact hne rfl
    | cons a as =>
      rcases dedupKeyed_covers id [] a (List.mem_cons_self a as) with h | ⟨b, hb, _⟩
      · exact absurd h (List.not_mem_nil _)
      · rw [hd] at hb
        exact absurd hb (List.not_mem_nil b)
  | cons u us =>
    have hmem_dedup : ∀ x ∈ u :: us, x ∈ origs := by
      intro x hx
      rw [← hd] at hx
      exact mem_of_mem_dedupKeyed id hx
    refine ⟨_, rfl, ?_, ?_⟩
    · rcases foldl_best_mem origs us u with h | h
      · rw [h]
        exact hmem_dedup u (List.mem_cons_self u us)
      · exact hmem_dedup _ (List.mem_cons_of_mem u h)
    · intro x hx
      have hx_dedup : x ∈ u :: us := by
        rcases dedupKeyed_covers id [] x hx with h | ⟨b, hb, hbx⟩
        · exact absurd h (List.not_mem_nil _)
        · rw [hd] at hb
          have : b = x := hbx
          rw [← this]
          exact hb
      obtain ⟨h1, h2⟩ := foldl_best_ge origs us u
      rcases List.mem_cons.mp hx_dedup with rfl | hx'
      · exact h1
      · exact h2 x hx'

theorem foldl_best_double (origs us : List String) (u : String) :
    us.foldl (fun b o =>
        if countOcc b (origs ++ origs) < countOcc o (origs ++ origs) then o else b) u
      = us.foldl (fun b o => if countOcc b origs < countOcc o origs then o else b) u := by
  induction us generalizing u with
  | nil => rfl
  | cons v vs ih =>
    simp only [List.foldl_cons]
    have hiff : countOcc u (origs ++ origs) < countOcc v (origs ++ origs) ↔
        countOcc u origs < countOcc v origs := by
      rw [countOcc_append, countOcc_append]
      omega
    by_cases h : countOcc u origs < countOcc v origs
    · rw [if_pos h, if_pos (hiff.mpr h), ih]
    · rw [if_neg h, if_neg (fun hc => h (hiff.mp hc)), ih]

theorem mostCommon_double (origs : List String) :
    mostCommon (origs ++ origs) = mostCommon origs := by
  unfold mostCommon
  have hd : dedupKeyed id ([] : List String) (origs ++ origs)
      = dedupKeyed id [] origs :=
    dedupKeyed_append_absorb id [] origs origs (fun a ha => ⟨a, ha, rfl⟩)
  rw [hd]
  cases dedupKeyed id ([] : List String) origs with
  | nil => rfl
  | cons u us =>
    show some (us.foldl (fun b o =>
        if countOcc b (origs ++ origs) < countOcc o (origs ++ origs) then o else b) u)
      = some (us.foldl (fun b o =>
          if countOcc b origs < countOcc o origs then o else b) u)
    rw [foldl_best_double]

/-- Unfolding of `create_column_mapping`. -/
theorem create_column_mapping_eq (tables : List RawTable) :
    create_column_mapping tables
      = (keysInOrder (all_occurrences tables)).filterMap (fun k =>
          (mostCommon (origsOf (all_occurrences tables) k)).map (fun o => (k, o))) :=
  rfl

/-- C8: `create_column_mapping` includes every canonical key that has at
least one occurrence among the loaded tables' columns (no key with an
occurrence is dropped, even if only one table contributes it), and maps each
such key to an original column name whose occurrence count among that key's
occurrences is maximal. -/
theorem claim_C8_mapping_complete_and_maximal (tables : List RawTable) (k : String)
    (hocc : ∃ q ∈ all_occurrences tables, q.1 = k) :
    ∃ o, (k, o) ∈ create_column_mapping tables ∧
      o ∈ origsOf (all_occurrences tables) k ∧
      ∀ x ∈ origsOf (all_occurrences tables) k,
        countOcc x (origsOf (all_occurrences tables) k) ≤
          countOcc o (origsOf (all_occurrences tables) k) := by
  obtain ⟨q, hq, hqk⟩ := hocc
  have hkey : k ∈ keysInOrder (all_occurrences tables) := by
    unfold keysInOrder
    have hk_mem : k ∈ (all_occurrences tables).map Prod.fst := by
      rw [List.mem_map]
      exact ⟨q, hq, hqk⟩
    rcases dedupKeyed_covers id [] k hk_mem with h | ⟨b, hb, hbk⟩
    · exact absurd h (List.not_mem_nil _)
    · have : b = k := hbk
      rw [← this]
      exact hb
  have hne : origsOf (all_occurrences tables) k ≠ [] := by
    intro hempty
    have : q.2 ∈ origsOf (all_occurrences tables) k := by
      unfold origsOf
      rw [List.mem_filterMap]
      exact ⟨q, hq, by rw [if_pos hqk]⟩
    rw [hempty] at this
    exact absurd this (List.not_mem_nil _)
  obtain ⟨o, hmc, homem, hmax⟩ := mostCommon_spec _ hne
  refine ⟨o, ?_, homem, hmax⟩
  rw [create_column_mapping_eq, List.mem_filterMap]
  exact ⟨k, hkey, by rw [hmc]; rfl⟩

/-- Witness for C8: with a single loaded table carrying a `"Truck#"` column,
the key `"truck"` enters the mapping with `"Truck#"` as its original name. -/
theorem claim_C8_mapping_complete_and_maximal_witness :
    ∃ o, ("truck", o) ∈ create_column_mapping
        [⟨"f.xlsx", "S1", ["Truck#", "Status"], [[some "T1", some "OK"]]⟩] ∧
      o ∈ origsOf (all_occurrences
        [⟨"f.xlsx", "S1", ["Truck#", "Status"], [[some "T1", some "OK"]]⟩]) "truck" ∧
      ∀ x ∈ origsOf (all_occurrences
          [⟨"f.xlsx", "S1", ["Truck#", "Status"], [[some "T1", some "OK"]]⟩]) "truck",
        countOcc x (origsOf (all_occurrences
          [⟨"f.xlsx", "S1", ["Truck#", "Status"], [[some "T1", some "OK"]]⟩]) "truck") ≤
          countOcc o (origsOf (all_occurrences
            [⟨"f.xlsx", "S1", ["Truck#", "Status"], [[some "T1", some "OK"]]⟩]) "truck") :=
  claim_C8_mapping_complete_and_maximal
    [⟨"f.xlsx", "S1", ["Truck#", "Status"], [[some "T1", some "OK"]]⟩] "truck"
    (by decide)

/-! ## Helper lemmas: column assignment and row structure -/

theorem any_eq_mem_keys (r : Row) (k : String) :
    r.any (fun p => p.1 == k) = true ↔ k ∈ r.map Prod.fst := by
  rw [List.any_eq_true]
  constructor
  · rintro ⟨p, hp, hpk⟩
    rw [List.mem_map]
    exact ⟨p, hp, (beq_iff_eq.mp hpk)⟩
  · intro hk
    rw [List.mem_map] at hk
    obtain ⟨p, hp, hpk⟩ := hk
    exact ⟨p, hp, beq_iff_eq.mpr hpk⟩

theorem keys_map_overwrite (r : Row) (k : String) (v : Option String) :
    (r.map (fun p => if p.1 == k then (k, v) else p)).map Prod.fst
      = r.map Prod.fst := by
  induction r with
  | nil => rfl
  | cons p ps ih =>
    simp only [List.map_cons]
    by_cases h : (p.1 == k) = true
    · rw [if_pos h, ih]
      show k :: ps.map Prod.fst = p.1 :: ps.map Prod.fst
      rw [beq_iff_eq.mp h]
    · rw [if_neg h, ih]

theorem keys_setCol (r : Row) (k : String) (v : Option String) :
    (setCol r k v).map Prod.fst = addName (r.map Prod.fst) k := by
  unfold setCol addName
  by_cases h : k ∈ r.map Prod.fst
  · rw [if_pos ((any_eq_mem_keys r k).mpr h), if_pos h]
    exact keys_map_overwrite r k v
  · rw [if_neg (fun ha => h ((any_eq_mem_keys r k).mp ha)), if_neg h, List.map_append]
    rfl

theorem length_setCol_mem (r : Row) (k : String) (v : Option String)
    (h : k ∈ r.map Prod.fst) : (setCol r k v).length = r.length := by
  unfold setCol
  rw [if_pos ((any_eq_mem_keys r k).mpr h), List.length_map]

theorem length_setCol_new (r : Row) (k : String) (v : Option String)
    (h : ¬ k ∈ r.map Prod.fst) : (setCol r k v).length = r.length + 1 := by
  unfold setCol
  rw [if_neg (fun ha => h ((any_eq_mem_keys r k).mp ha)), List.length_append]
  rfl

theorem find_overwrite_of_mem (r : Row) (k : String) (v : Option String)
    (h : k ∈ r.map Prod.fst) :
    (r.map (fun p => if p.1 == k then (k, v) else p)).find? (fun p => p.1 == k)
      = some (k, v) := by
  induction r with
  | nil => simp at h
  | cons p ps ih =>
    simp only [List.map_cons]
    by_cases hp : (p.1 == k) = true
    · rw [if_pos hp]
      exact find?_cons_true _ _ _ (by simp)
    · rw [if_neg hp]
      rw [find?_cons_false _ _ _ (by simpa using hp)]
      apply ih
      rw [List.map_cons, List.mem_cons] at h
      rcases h with h1 | h2
      · exact absurd (beq_iff_eq.mpr h1.symm) hp
      · exact h2

theorem find_append_new (r : Row) (k : String) (v : Option String)
    (h : ¬ k ∈ r.map Prod.fst) :
    (r ++ [(k, v)]).find? (fun p => p.1 == k) = some (k, v) := by
  induction r with
  | nil => exact find?_cons_true _ _ _ (by simp)
  | cons p ps ih =>
    have hp : ((fun q : String × Option String => q.1 == k) p) = false := by
      simp only [beq_eq_false_iff_ne, ne_eq]
      intro he
      exact h (by rw [List.map_cons]; exact List.mem_cons.mpr (Or.inl he.symm))
    rw [List.cons_append,
      find?_cons_false (fun q : String × Option String => q.1 == k) p _ hp]
    exact ih (fun hm => h (by rw [List.map_cons]; exact List.mem_cons_of_mem _ hm))

theorem getCell_setCol_self (r : Row) (k : String) (v : Option String) :
    getCell (setCol r k v) k = some v := by
  unfold setCol getCell
  by_cases h : k ∈ r.map Prod.fst
  · rw [if_pos ((any_eq_mem_keys r k).mpr h), find_overwrite_of_mem r k v h]
    rfl
  · rw [if_neg (fun ha => h ((any_eq_mem_keys r k).mp ha)), find_append_new r k v h]
    rfl

theorem find_overwrite_ne (r : Row) (k k2 : String) (v : Option String)
    (h : k2 ≠ k) :
    (r.map (fun p => if p.1 == k then (k, v) else p)).find? (fun p => p.1 == k2)
      = r.find? (fun p => p.1 == k2) := by
  induction r with
  | nil => rfl
  | cons p ps ih =>
    simp only [List.map_cons]
    by_cases hp : (p.1 == k) = true
    · rw [if_pos hp]
      have hkk2 : ((fun q : String × Option String => q.1 == k2) (k, v)) = false := by
        simp only [beq_eq_false_iff_ne, ne_eq]
        exact fun he => h he.symm
      have hp2 : ((fun q : String × Option String => q.1 == k2) p) = false := by
        show (p.1 == k2) = false
        rw [beq_iff_eq.mp hp]
        exact hkk2
      rw [find?_cons_false (fun q : String × Option String => q.1 == k2) (k, v) _ hkk2,
        find?_cons_false (fun q : String × Option String => q.1 == k2) p ps hp2, ih]
    · rw [if_neg hp]
      by_cases hp2 : ((fun q : String × Option String => q.1 == k2) p) = true
      · rw [find?_cons_true (fun q : String × Option String => q.1 == k2) p _ hp2,
          find?_cons_true (fun q : String × Option String => q.1 == k2) p ps hp2]
      · have hp2f : ((fun q : String × Option String => q.1 == k2) p) = false := by
          simpa using hp2
        rw [find?_cons_false (fun q : String × Option String => q.1 == k2) p _ hp2f,
          find?_cons_false (fun q : String × Option String => q.1 == k2) p ps hp2f, ih]

theorem find_append_ne (r : Row) (k k2 : String) (v : Option String)
    (h : k2 ≠ k) :
    (r ++ [(k, v)]).find? (fun p => p.1 == k2) = r.find? (fun p => p.1 == k2) := by
  induction r with
  | nil =>
    have hkv : ((fun q : String × Option String => q.1 == k2) (k, v)) = false := by
      simp only [beq_eq_false_iff_ne, ne_eq]
      exact fun he => h he.symm
    rw [List.nil_append,
      find?_cons_false (fun q : String × Option String => q.1 == k2) (k, v) [] hkv]
  | cons p ps ih =>
    rw [List.cons_append]
    by_cases hp2 : ((fun q : String × Option String => q.1 == k2) p) = true
    · rw [find?_cons_true (fun q : String × Option String => q.1 == k2) p _ hp2,
        find?_cons_true (fun q : String × Option String => q.1 == k2) p ps hp2]
    · have hp2f : ((fun q : String × Option String => q.1 == k2) p) = false := by
        simpa using hp2
      rw [find?_cons_false (fun q : String × Option String => q.1 == k2) p _ hp2f,
        find?_cons_false (fun q : String × Option String => q.1 == k2) p ps hp2f, ih]

theorem getCell_setCol_ne (r : Row) (k k2 : String) (v : Option String)
    (h : k2 ≠ k) : getCell (setCol r k v) k2 = getCell r k2 := by
  unfold setCol getCell
  by_cases hmem : r.any (fun p => p.1 == k) = true
  · rw [if_pos hmem, find_overwrite_ne r k k2 v h]
  · rw [if_neg hmem, find_append_ne r k k2 v h]

theorem filter_overwrite_prov (r : Row) (k : String) (v : Option String)
    (h : provNames.contains k = true) :
    (r.map (fun p => if p.1 == k then (k, v) else p)).filter
        (fun p => !provNames.contains p.1)
      = r.filter (fun p => !provNames.contains p.1) := by
  induction r with
  | nil => rfl
  | cons p ps ih =>
    simp only [List.map_cons]
    by_cases hp : (p.1 == k) = true
    · have hpk : p.1 = k := beq_iff_eq.mp hp
      rw [if_pos hp, List.filter_cons, List.filter_cons]
      have h1 : (!provNames.contains (((k, v) : String × Option String).1)) = false := by
        show (!provNames.contains k) = false
        rw [h]
        rfl
      have h2 : (!provNames.contains p.1) = false := by
        rw [hpk, h]
        rfl
      rw [h1, h2]
      simp only [Bool.false_eq_true, if_false]
      exact ih
    · rw [if_neg hp, List.filter_cons, List.filter_cons]
      by_cases hkeep : (!provNames.contains p.1) = true
      · rw [hkeep]
        simp only [if_true]
        rw [ih]
      · rw [Bool.not_eq_true] at hkeep
        rw [hkeep]
        simp only [Bool.false_eq_true, if_false]
        exact ih

theorem rowData_setCol_prov (r : Row) (k : String) (v : Option String)
    (h : provNames.contains k = true) : rowData (setCol r k v) = rowData r := by
  unfold setCol rowData
  by_cases hmem : r.any (fun p => p.1 == k) = true
  · rw [if_pos hmem]
    exact filter_overwrite_prov r k v h
  · rw [if_neg hmem, List.filter_append]
    have : List.filter (fun p => !provNames.contains p.1) [(k, v)] = [] := by
      rw [List.filter_cons]
      have h1 : (!provNames.contains (((k, v) : String × Option String).1)) = false := by
        show (!provNames.contains k) = false
        rw [h]
        rfl
      rw [h1]
      rfl
    rw [this, List.append_nil]

/-! ## Helper lemmas: the projection loop -/

/-- One iteration of the projection loop (main.py lines 222-240). -/
def projStep (t : RawTable) (srcRow : List (Option String)) (acc : Row)
    (p : String × String) : Row :=
  match findSrcIdx t p.1 p.2 with
  | some i => setCol acc p.1 (srcRow.getD i none)
  | none => setCol acc p.1 none

theorem projBase_eq_foldl (m : List (String × String)) (t : RawTable)
    (srcRow : List (Option String)) :
    projBase m t srcRow = m.foldl (projStep t srcRow) [] := rfl

theorem keys_projStep (t : RawTable) (srcRow : List (Option String)) (acc : Row)
    (p : String × String) :
    (projStep t srcRow acc p).map Prod.fst = addName (acc.map Prod.fst) p.1 := by
  unfold projStep
  cases findSrcIdx t p.1 p.2 with
  | some i => exact keys_setCol acc p.1 _
  | none => exact keys_setCol acc p.1 none

theorem mem_foldl_addName (l : List String) (init : List String) (a : String) :
    a ∈ l.foldl addName init ↔ a ∈ init ∨ a ∈ l := by
  induction l generalizing init with
  | nil => simp
  | cons x xs ih =>
    simp only [List.foldl_cons]
    rw [ih]
    unfold addName
    by_cases hx : x ∈ init
    · rw [if_pos hx]
      constructor
      · intro h
        rcases h with h | h
        · exact Or.inl h
        · exact Or.inr (List.mem_cons_of_mem x h)
      · intro h
        rcases h with h | h
        · exact Or.inl h
        · rcases List.mem_cons.mp h with rfl | h2
          · exact Or.inl hx
          · exact Or.inr h2
    · rw [if_neg hx]
      constructor
      · intro h
        rcases h with h | h
        · rcases List.mem_append.mp h with h1 | h1
          · exact Or.inl h1
          · rw [List.mem_singleton] at h1
            exact Or.inr (by rw [h1]; exact List.mem_cons_self x xs)
        · exact Or.inr (List.mem_cons_of_mem x h)
      · intro h
        rcases h with h | h
        · exact Or.inl (List.mem_append.mpr (Or.inl h))
        · rcases List.mem_cons.mp h with rfl | h2
          · exact Or.inl (List.mem_append.mpr (Or.inr (List.mem_singleton.mpr rfl)))
          · exact Or.inr h2

theorem keys_foldl_projStep (m : List (String × String)) (t : RawTable)
    (srcRow : List (Option String)) (acc : Row) :
    (m.foldl (projStep t srcRow) acc).map Prod.fst
      = (m.map Prod.fst).foldl addName (acc.map Prod.fst) := by
  induction m generalizing acc with
  | nil => rfl
  | cons p ps ih =>
    simp only [List.foldl_cons, List.map_cons]
    rw [ih, keys_projStep]

theorem mem_keys_projBase (m : List (String × String)) (t : RawTable)
    (srcRow : List (Option String)) (k : String) :
    k ∈ (projBase m t srcRow).map Prod.fst ↔ k ∈ m.map Prod.fst := by
  rw [projBase_eq_foldl, keys_foldl_projStep]
  show k ∈ (m.map Prod.fst).foldl addName (([] : Row).map Prod.fst) ↔ _
  rw [mem_foldl_addName]
  simp

theorem length_foldl_projStep (m : List (String × String)) (t : RawTable)
    (srcRow : List (Option String)) (acc : Row)
    (hno : ∀ k ∈ m.map Prod.fst, ¬ k ∈ acc.map Prod.fst)
    (hnd : (m.map Prod.fst).Nodup) :
    (m.foldl (projStep t srcRow) acc).length = acc.length + m.length := by
  induction m generalizing acc with
  | nil => rfl
  | cons p ps ih =>
    simp only [List.foldl_cons]
    rw [List.map_cons] at hnd
    have hp1 : ¬ p.1 ∈ acc.map Prod.fst :=
      hno p.1 (by rw [List.map_cons]; exact List.mem_cons_self _ _)
    have hp1notps : p.1 ∉ ps.map Prod.fst := (List.nodup_cons.mp hnd).1
    have hlen : (projStep t srcRow acc p).length = acc.length + 1 := by
      unfold projStep
      cases findSrcIdx t p.1 p.2 with
      | some i => exact length_setCol_new acc p.1 _ hp1
      | none => exact length_setCol_new acc p.1 none hp1
    have hkeys : (projStep t srcRow acc p).map Prod.fst
        = acc.map Prod.fst ++ [p.1] := by
      rw [keys_projStep]
      unfold addName
      rw [if_neg hp1]
    have hno' : ∀ k ∈ ps.map Prod.fst,
        ¬ k ∈ (projStep t srcRow acc p).map Prod.fst := by
      intro k hk
      rw [hkeys, List.mem_append]
      rintro (h1 | h2)
      · exact hno k (by rw [List.map_cons]; exact List.mem_cons_of_mem _ hk) h1
      · rw [List.mem_singleton] at h2
        exact hp1notps (h2 ▸ hk)
    rw [ih (projStep t srcRow acc p) hno' (List.nodup_cons.mp hnd).2, hlen,
      List.length_cons]
    omega

theorem getCell_foldl_not_mem (m : List (String × String)) (t : RawTable)
    (srcRow : List (Option String)) (acc : Row) (k : String)
    (h : ¬ k ∈ m.map Prod.fst) :
    getCell (m.foldl (projStep t srcRow) acc) k = getCell acc k := by
  induction m generalizing acc with
  | nil => rfl
  | cons p ps ih =>
    simp only [List.foldl_cons]
    have hk : k ≠ p.1 :=
      fun he => h (by rw [List.map_cons, he]; exact List.mem_cons_self _ _)
    rw [ih _ (fun hm => h (by rw [List.map_cons]; exact List.mem_cons_of_mem _ hm))]
    unfold projStep
    cases findSrcIdx t p.1 p.2 with
    | some i => exact getCell_setCol_ne acc p.1 k _ hk
    | none => exact getCell_setCol_ne acc p.1 k none hk

theorem getCell_foldl_mem (m : List (String × String)) (t : RawTable)
    (srcRow : List (Option String)) (k orig : String)
    (hmem : (k, orig) ∈ m) (hnd : (m.map Prod.fst).Nodup) :
    ∀ acc : Row,
      getCell (m.foldl (projStep t srcRow) acc) k
        = some (match findSrcIdx t k orig with
            | some i => srcRow.getD i none
            | none => none) := by
  induction m with
  | nil => exact absurd hmem (List.not_mem_nil _)
  | cons p ps ih =>
    intro acc
    simp only [List.foldl_cons]
    rw [List.map_cons] at hnd
    rcases List.mem_cons.mp hmem with heq | hmem'
    · rw [← heq] at hnd ⊢
      have hknotps : (k, orig).1 ∉ ps.map Prod.fst := (List.nodup_cons.mp hnd).1
      rw [getCell_foldl_not_mem ps t srcRow _ (k, orig).1 hknotps]
      show getCell (projStep t srcRow acc (k, orig)) k = _
      unfold projStep
      cases findSrcIdx t k orig with
      | some i => exact getCell_setCol_self acc k _
      | none => exact getCell_setCol_self acc k none
    · exact ih hmem' (List.nodup_cons.mp hnd).2 _

theorem getCell_projBase (m : List (String × String)) (t : RawTable)
    (srcRow : List (Option String)) (k orig : String)
    (hmem : (k, orig) ∈ m) (hnd : (m.map Prod.fst).Nodup) :
    getCell (projBase m t srcRow) k
      = some (match findSrcIdx t k orig with
          | some i => srcRow.getD i none
          | none => none) := by
  rw [projBase_eq_foldl]
  exact getCell_foldl_mem m t srcRow k orig hmem hnd []

theorem getCell_projectRow_mt (m : List (String × String)) (t : RawTable)
    (srcRow : List (Option String)) (ts : String) :
    getCell (projectRow m t srcRow ts) "merge_timestamp" = some (some ts) :=
  getCell_setCol_self _ _ _

theorem rowData_projectRow_eq_base (m : List (String × String)) (t : RawTable)
    (srcRow : List (Option String)) (ts : String) :
    rowData (projectRow m t srcRow ts) = rowData (projBase m t srcRow) := by
  unfold projectRow
  rw [rowData_setCol_prov _ _ _ (by decide), rowData_setCol_prov _ _ _ (by decide),
    rowData_setCol_prov _ _ _ (by decide)]

theorem getCell_projectRow_nonprov (m : List (String × String)) (t : RawTable)
    (srcRow : List (Option String)) (ts : String) (k : String)
    (h : provNames.contains k = false) :
    getCell (projectRow m t srcRow ts) k = getCell (projBase m t srcRow) k := by
  unfold projectRow
  have h1 : k ≠ "merge_timestamp" := by
    intro he
    rw [he] at h
    exact absurd h (by decide)
  have h2 : k ≠ "source_sheet" := by
    intro he
    rw [he] at h
    exact absurd h (by decide)
  have h3 : k ≠ "source_file" := by
    intro he
    rw [he] at h
    exact absurd h (by decide)
  rw [getCell_setCol_ne _ _ _ _ h1, getCell_setCol_ne _ _ _ _ h2,
    getCell_setCol_ne _ _ _ _ h3]

theorem length_projectRow (m : List (String × String)) (t : RawTable)
    (srcRow : List (Option String)) (ts : String)
    (hnd : (m.map Prod.fst).Nodup)
    (hdisj : ∀ k ∈ m.map Prod.fst, provNames.contains k = false) :
    (projectRow m t srcRow ts).length = m.length + 3 := by
  have hbaselen : (projBase m t srcRow).length = m.length := by
    rw [projBase_eq_foldl]
    have := length_foldl_projStep m t srcRow []
      (fun k _ hk => absurd hk (List.not_mem_nil k)) hnd
    simpa using this
  have hdisj' : ∀ k, k ∈ (projBase m t srcRow).map Prod.fst →
      provNames.contains k = false := by
    intro k hk
    exact hdisj k ((mem_keys_projBase m t srcRow k).mp hk)
  have hsf : ¬ "source_file" ∈ (projBase m t srcRow).map Prod.fst := by
    intro hm
    exact absurd (hdisj' _ hm) (by decide)
  have hr1len : (setCol (projBase m t srcRow) "source_file"
      (some (baseName t.file_path))).length = m.length + 1 := by
    rw [length_setCol_new _ _ _ hsf, hbaselen]
  have hr1keys : (setCol (projBase m t srcRow) "source_file"
      (some (baseName t.file_path))).map Prod.fst
      = (projBase m t srcRow).map Prod.fst ++ ["source_file"] := by
    rw [keys_setCol]
    unfold addName
    rw [if_neg hsf]
  have hss : ¬ "source_sheet" ∈ (setCol (projBase m t srcRow) "source_file"
      (some (baseName t.file_path))).map Prod.fst := by
    rw [hr1keys, List.mem_append]
    rintro (hm | hm)
    · exact absurd (hdisj' _ hm) (by decide)
    · rw [List.mem_singleton] at hm
      exact absurd hm (by decide)
  have hr2len : (setCol (setCol (projBase m t srcRow) "source_file"
      (some (baseName t.file_path))) "source_sheet"
      (some t.sheet_name)).length = m.length + 2 := by
    rw [length_setCol_new _ _ _ hss, hr1len]
  have hr2keys : (setCol (setCol (projBase m t srcRow) "source_file"
      (some (baseName t.file_path))) "source_sheet"
      (some t.sheet_name)).map Prod.fst
      = (projBase m t srcRow).map Prod.fst ++ ["source_file"] ++ ["source_sheet"] := by
    rw [keys_setCol]
    unfold addName
    rw [if_neg hss, hr1keys]
  have hmt : ¬ "merge_timestamp" ∈ (setCol (setCol (projBase m t srcRow)
      "source_file" (some (baseName t.file_path))) "source_sheet"
      (some t.sheet_name)).map Prod.fst := by
    rw [hr2keys, List.mem_append, List.mem_append]
    rintro ((hm | hm) | hm)
    · exact absurd (hdisj' _ hm) (by decide)
    · rw [List.mem_singleton] at hm
      exact absurd hm (by decide)
    · rw [List.mem_singleton] at hm
      exact absurd hm (by decide)
  show (setCol _ "merge_timestamp" (some ts)).length = m.length + 3
  rw [length_setCol_new _ _ _ hmt, hr2len]

theorem findIdxO_none_of {β : Type} (p : β → Bool) (l : List β)
    (h : ∀ a ∈ l, p a = false) : findIdxO p l = none := by
  induction l with
  | nil => rfl
  | cons a as ih =>
    unfold findIdxO
    rw [h a (List.mem_cons_self a as)]
    simp only [Bool.false_eq_true, if_false]
    rw [ih (fun x hx => h x (List.mem_cons_of_mem a hx))]
    rfl

theorem findSrcIdx_none (t : RawTable) (k orig : String)
    (h1 : ¬ orig ∈ t.columns) (h2 : ∀ c ∈ t.columns, analyze_column (some c) ≠ k) :
    findSrcIdx t k orig = none := by
  unfold findSrcIdx
  have ha : findIdxO (fun c => c = orig) t.columns = none :=
    findIdxO_none_of _ _ (fun c hc => decide_eq_false (fun he => h1 (he ▸ hc)))
  have hb : findIdxO (fun c => analyze_column (some c) = k) t.columns = none :=
    findIdxO_none_of _ _ (fun c hc => decide_eq_false (h2 c hc))
  rw [ha, hb]

theorem map_fst_filterMap_opt (l : List String) (g : String → Option String) :
    (l.filterMap (fun k => (g k).map (fun o => (k, o)))).map Prod.fst
      = l.filter (fun k => (g k).isSome) := by
  induction l with
  | nil => rfl
  | cons k ks ih =>
    rw [List.filterMap_cons, List.filter_cons]
    cases hg : g k with
    | none => simp [hg, ih]
    | some o => simp [hg, ih]

theorem keysInOrder_nodup (occs : List (String × String)) :
    (keysInOrder occs).Nodup :=
  dedupKeyed_pairwise id [] (occs.map Prod.fst)

theorem create_keys_nodup (tables : List RawTable) :
    ((create_column_mapping tables).map Prod.fst).Nodup := by
  rw [create_column_mapping_eq, map_fst_filterMap_opt]
  exact (keysInOrder_nodup _).filter _

theorem mem_project_table {m : List (String × String)} {t : RawTable}
    {ts : String} {r : Row} (hr : r ∈ project_table m t ts) :
    ∃ srcRow ∈ t.rows, r = projectRow m t srcRow ts := by
  unfold project_table at hr
  by_cases hf : tableFound m t = true
  · rw [if_pos hf] at hr
    rw [List.mem_map] at hr
    obtain ⟨srcRow, hs, heq⟩ := hr
    exact ⟨srcRow, hs, heq.symm⟩
  · rw [if_neg hf] at hr
    exact absurd hr (List.not_mem_nil r)

/-! ## Claim C1: shape of the projected table -/

/-- Concrete table for the C1 counterexample: one of its headers is the
provenance name `source_file` (e.g. a master file from a previous run being
re-merged). -/
def C1Tsf : RawTable :=
  ⟨"f.xlsx", "S1", ["status", "source_file"], [[some "OK", some "old.xlsx"]]⟩

/-- Table whose single column populates the mapping for the second C1
counterexample scenario. -/
def C1Tm : RawTable := ⟨"f.xlsx", "S1", ["status"], [[some "OK"]]⟩

/-- Loaded table with a whitespace-only header: no mapping entry finds a
source column in it. -/
def C1Tblank : RawTable := ⟨"g.xlsx", "S2", ["  "], [[some "x"]]⟩

/-- C1 counterexample, two failures.  First: with the mapping built from
`C1Tsf` the mapping has 2 keys (`status` and `source_file`), but the
projected row has only 4 columns, not 2 + 3 = 5: the provenance assignment
`standardized_df['source_file'] = ...` (main.py line 243) overwrites the
data column of the same name instead of adding a new one.  Second: the
loaded table `C1Tblank` has one source row, but no mapping key is found in
it, so lines 240/243-245 only assign scalars to the empty `standardized_df`
and its projected block has zero rows — projection drops its rows. -/
theorem claim_C1_counterexample :
    ((create_column_mapping [C1Tsf]).length = 2 ∧
      (project_table (create_column_mapping [C1Tsf]) C1Tsf "t0").map List.length
        = [4] ∧ (4 : Nat) ≠ 2 + 3) ∧
    (project_table (create_column_mapping [C1Tm, C1Tblank]) C1Tblank "t1" = [] ∧
      C1Tblank.rows.length = 1) := by decide

/-- C1 (amended): provided some canonical key of the ColumnMapping is found
in the table (exact original-name match or normalized-key match) — which
holds in particular whenever the table contributes a standardized column to
the mapping — the projected table has exactly one projected row per source
row; if additionally no canonical key equals one of the three provenance
column names, every projected row has exactly `len(mapping) + 3` fields. -/
theorem claim_C1_projection_shape (tables : List RawTable) (t : RawTable)
    (_ht : t ∈ tables) (ts : String)
    (hfound : tableFound (create_column_mapping tables) t = true)
    (hdisj : ∀ k ∈ (create_column_mapping tables).map Prod.fst,
      provNames.contains k = false) :
    (project_table (create_column_mapping tables) t ts).length = t.rows.length ∧
    ∀ r ∈ project_table (create_column_mapping tables) t ts,
      r.length = (create_column_mapping tables).length + 3 := by
  constructor
  · unfold project_table
    rw [if_pos hfound, List.length_map]
  · intro r hr
    obtain ⟨srcRow, hsrc, heq⟩ := mem_project_table hr
    rw [heq]
    exact length_projectRow _ t srcRow ts (create_keys_nodup tables) hdisj

/-- Concrete table for the C1 witness. -/
def C1T : RawTable :=
  ⟨"f.xlsx", "S1", ["Truck#", "Status"], [[some "T1", some "OK"]]⟩

/-- Witness for C1 (amended): a one-row table projects to one row. -/
theorem claim_C1_projection_shape_witness :
    (project_table (create_column_mapping [C1T]) C1T "t0").length
      = C1T.rows.length :=
  (claim_C1_projection_shape [C1T] C1T (by decide) "t0" (by decide) (by decide)).1

/-! ## Claim C2: null-fill for keys absent from a table -/

/-- Concrete tables for the C2 counterexample: `C2Tsf` contributes the
mapping key `source_file`; `C2Tp` does not have that column. -/
def C2Tsf : RawTable := ⟨"f.xlsx", "S1", ["source_file"], [[some "old.xlsx"]]⟩

/-- Companion table for the C2 counterexample. -/
def C2Tp : RawTable := ⟨"g.xlsx", "S2", ["status"], [[some "OK"]]⟩

/-- C2 counterexample: the key `source_file` is in the mapping, `C2Tp` has no
raw column matching it exactly and none normalizing to it, yet its projected
column is the file name `g.xlsx`, not null: the provenance write (main.py
line 243) overwrites the null fill. -/
theorem claim_C2_counterexample :
    ("source_file", "source_file") ∈ create_column_mapping [C2Tsf, C2Tp] ∧
    ¬ "source_file" ∈ C2Tp.columns ∧
    (∀ c ∈ C2Tp.columns, analyze_column (some c) ≠ "source_file") ∧
    (project_table (create_column_mapping [C2Tsf, C2Tp]) C2Tp "t1").map
        (fun r => getCell r "source_file")
      = [some (some "g.xlsx")] ∧
    some (some ("g.xlsx" : String)) ≠ some none := by decide

/-- C2 (amended): for every loaded RawTable and every canonical key of the
ColumnMapping that is not one of the three provenance names, if the table
has no raw column equal to the mapping's chosen original name and no raw
column whose normalized key equals the canonical key, then the projected
table carries that column as null in every one of the table's rows; the
projection is a total function, so it never raises. -/
theorem claim_C2_null_fill (tables : List RawTable) (t : RawTable) (ts : String)
    (k orig : String)
    (hmem : (k, orig) ∈ create_column_mapping tables)
    (hnotprov : provNames.contains k = false)
    (hexact : ¬ orig ∈ t.columns)
    (hnorm : ∀ c ∈ t.columns, analyze_column (some c) ≠ k) :
    ∀ r ∈ project_table (create_column_mapping tables) t ts,
      getCell r k = some none := by
  intro r hr
  obtain ⟨srcRow, hsrc, heq⟩ := mem_project_table hr
  rw [heq, getCell_projectRow_nonprov _ _ _ _ _ hnotprov,
    getCell_projBase _ _ _ k orig hmem (create_keys_nodup tables),
    findSrcIdx_none t k orig hexact hnorm]

/-- Source table for the C2 witness mapping. -/
def C2Wsrc : RawTable := ⟨"f.xlsx", "S1", ["status"], [[some "OK"]]⟩

/-- Target table for the C2 witness: it lacks any column normalizing to
`status`, but its own `driver` column is found, so its projected block is
non-empty. -/
def C2Wt : RawTable := ⟨"g.xlsx", "S2", ["driver"], [[some "bob"]]⟩

/-- Witness for C2 (amended): projecting `C2Wt` against the mapping built
from both tables null-fills the `status` column of its row. -/
theorem claim_C2_null_fill_witness :
    getCell (projectRow (create_column_mapping [C2Wsrc, C2Wt]) C2Wt
      [some "bob"] "t9") "status" = some none :=
  claim_C2_null_fill [C2Wsrc, C2Wt] C2Wt "t9" "status" "status"
    (by decide) (by decide) (by decide) (by decide)
    (projectRow (create_column_mapping [C2Wsrc, C2Wt]) C2Wt [some "bob"] "t9")
    (by decide)

/-! ## Claim C5: merge timestamps -/

/-- Concrete tables for the C5 counterexample. -/
def C5Ta : RawTable := ⟨"a.xlsx", "S", ["status"], [[some "OK"]]⟩

/-- Second concrete table for the C5 counterexample. -/
def C5Tb : RawTable := ⟨"b.xlsx", "S", ["status"], [[some "BAD"]]⟩

/-- C5 counterexample: `datetime.now()` is called once per table inside the
projection loop (main.py line 245), not once per run.  With a clock whose
two readings differ, the merged output of a single run contains two rows
(from the two source tables) with different `merge_timestamp` values. -/
theorem claim_C5_counterexample :
    (merge_dataframes [C5Ta, C5Tb] (create_column_mapping [C5Ta, C5Tb])
        (fun n => if n = 0 then "t0" else "t1")).map
        (fun r => getCell r "merge_timestamp")
      = [some (some "t0"), some (some "t1")] ∧
    some (some ("t0" : String)) ≠ some (some ("t1" : String)) := by decide

/-- C5 (amended): the timestamp is captured once per source table, not once
per run: every row of one table's projected block carries that block's
single clock reading, so any two rows originating from the same source
table have equal `merge_timestamp` values (rows from different tables come
from different `datetime.now()` calls and may differ). -/
theorem claim_C5_per_table_timestamp (mapping : List (String × String))
    (t : RawTable) (ts : String) :
    (∀ r ∈ project_table mapping t ts,
      getCell r "merge_timestamp" = some (some ts)) ∧
    (∀ r1 ∈ project_table mapping t ts, ∀ r2 ∈ project_table mapping t ts,
      getCell r1 "merge_timestamp" = getCell r2 "merge_timestamp") := by
  have hall : ∀ r ∈ project_table mapping t ts,
      getCell r "merge_timestamp" = some (some ts) := by
    intro r hr
    obtain ⟨srcRow, hsrc, heq⟩ := mem_project_table hr
    rw [heq]
    exact getCell_projectRow_mt mapping t srcRow ts
  refine ⟨hall, ?_⟩
  intro r1 h1 r2 h2
  rw [hall r1 h1, hall r2 h2]

/-- Witness for C5 (amended): a concrete projected row carries the block's
timestamp. -/
theorem claim_C5_per_table_timestamp_witness :
    getCell (projectRow (create_column_mapping [C5Ta]) C5Ta [some "OK"] "t7")
      "merge_timestamp" = some (some "t7") :=
  (claim_C5_per_table_timestamp (create_column_mapping [C5Ta]) C5Ta "t7").1
    (projectRow (create_column_mapping [C5Ta]) C5Ta [some "OK"] "t7")
    (by decide)

/-! ## Claim C6: de-duplication of the merged table -/

/-- Concrete table for the C6 counterexample: its only header is literally
`source_file` (e.g. a master file from a previous run being re-merged), so
the only mapping key is a provenance name. -/
def C6Tprov : RawTable := ⟨"f.xlsx", "S", ["source_file"], [[some "a"], [some "b"]]⟩

/-- C6 counterexample: the only mapping key is `source_file`, so every
column of `master_df` is a provenance column, the dedup subset
`data_columns` is empty, and the `drop_duplicates` step is skipped (main.py
line 260).  The merged table keeps two rows that are identical across all
(zero) non-provenance fields. -/
theorem claim_C6_counterexample :
    dataColumns (create_column_mapping [C6Tprov]) = [] ∧
    (merge_dataframes [C6Tprov] (create_column_mapping [C6Tprov])
        (fun _ => "t")).length = 2 ∧
    (merge_dataframes [C6Tprov] (create_column_mapping [C6Tprov])
        (fun _ => "t")).map rowData = [[], []] := by
  decide

/-- C6 (amended): provided the de-duplication subset is non-empty (at least
one merged column is not a provenance column), the merged table after
de-duplication has no two rows identical across all non-provenance fields;
it is a subsequence of the concatenation, every concatenated row is
represented by a row with the same non-provenance fields, and the row kept
for each non-provenance value is its first occurrence in concatenation
order — in particular rows differing only in the three provenance fields
are collapsed.  When the subset is empty (every mapping key is a provenance
name), the dedup step is skipped (see the counterexample). -/
theorem claim_C6_dedup (tables : List RawTable) (mapping : List (String × String))
    (clock : Nat → String) (hdc : dataColumns mapping ≠ []) :
    List.Pairwise (fun a b => rowData a ≠ rowData b)
      (merge_dataframes tables mapping clock) ∧
    (merge_dataframes tables mapping clock).Sublist
      (concatProjected tables mapping clock) ∧
    (∀ r ∈ concatProjected tables mapping clock,
      ∃ s ∈ merge_dataframes tables mapping clock, rowData s = rowData r) ∧
    (∀ s ∈ merge_dataframes tables mapping clock,
      (concatProjected tables mapping clock).find?
        (fun x => decide (rowData x = rowData s)) = some s) := by
  by_cases he : tables.isEmpty = true
  · have ht : tables = [] := List.isEmpty_iff.mp he
    subst ht
    refine ⟨List.Pairwise.nil, ?_, ?_, ?_⟩
    · show ([] : List Row).Sublist []
      exact List.Sublist.refl []
    · intro r hr
      exact absurd hr (List.not_mem_nil r)
    · intro s hs
      exact absurd hs (List.not_mem_nil s)
  · have hout : merge_dataframes tables mapping clock
        = dedupKeyed rowData [] (concatProjected tables mapping clock) := by
      unfold merge_dataframes
      rw [if_neg he, if_neg hdc]
      rfl
    rw [hout]
    refine ⟨dedupKeyed_pairwise rowData [] _, dedupKeyed_sublist rowData [] _, ?_, ?_⟩
    · intro r hr
      rcases dedupKeyed_covers rowData [] r hr with h | ⟨b, hb, hbk⟩
      · exact absurd h (List.not_mem_nil _)
      · exact ⟨b, hb, hbk⟩
    · intro s hs
      exact dedupKeyed_find_first rowData s hs

/-- Concrete table for the C6 witness: two identical data rows collapse. -/
def C6T : RawTable := ⟨"f.xlsx", "S", ["status"], [[some "OK"], [some "OK"]]⟩

/-- Witness for C6 (amended): the de-duplicated output is a subsequence of
the concatenation. -/
theorem claim_C6_dedup_witness :
    (merge_dataframes [C6T] (create_column_mapping [C6T])
        (fun _ => "t")).Sublist
      (concatProjected [C6T] (create_column_mapping [C6T]) (fun _ => "t")) :=
  (claim_C6_dedup [C6T] (create_column_mapping [C6T]) (fun _ => "t")
    (by decide)).2.1

/-! ## Claim C7: merging a table twice -/

theorem filterMap_congr_local {α β : Type} (f g : α → Option β) (l : List α)
    (h : ∀ a ∈ l, f a = g a) : l.filterMap f = l.filterMap g := by
  induction l with
  | nil => rfl
  | cons a as ih =>
    rw [List.filterMap_cons, List.filterMap_cons, h a (List.mem_cons_self a as),
      ih (fun x hx => h x (List.mem_cons_of_mem a hx))]

theorem all_occurrences_double (t : RawTable) :
    all_occurrences [t, t] = all_occurrences [t] ++ all_occurrences [t] := by
  unfold all_occurrences
  simp only [List.flatMap_cons, List.flatMap_nil, List.append_nil]

theorem origsOf_append (o1 o2 : List (String × String)) (k : String) :
    origsOf (o1 ++ o2) k = origsOf o1 k ++ origsOf o2 k :=
  List.filterMap_append _ _ _

theorem keysInOrder_double (occs : List (String × String)) :
    keysInOrder (occs ++ occs) = keysInOrder occs := by
  unfold keysInOrder
  rw [List.map_append]
  exact dedupKeyed_append_absorb id [] _ _ (fun a ha => ⟨a, ha, rfl⟩)

theorem create_column_mapping_double (t : RawTable) :
    create_column_mapping [t, t] = create_column_mapping [t] := by
  rw [create_column_mapping_eq, create_column_mapping_eq, all_occurrences_double,
    keysInOrder_double]
  apply filterMap_congr_local
  intro k hk
  rw [origsOf_append, mostCommon_double]

theorem map_rowData_project_table (m : List (String × String)) (t : RawTable)
    (ts ts' : String) :
    (project_table m t ts).map rowData = (project_table m t ts').map rowData := by
  unfold project_table
  by_cases hf : tableFound m t = true
  · rw [if_pos hf, if_pos hf, List.map_map, List.map_map]
    apply List.map_congr_left
    intro r hr
    show rowData (projectRow m t r ts) = rowData (projectRow m t r ts')
    rw [rowData_projectRow_eq_base, rowData_projectRow_eq_base]
  · rw [if_neg hf, if_neg hf]

theorem occurrence_of_column (tables : List RawTable) (t : RawTable)
    (htt : t ∈ tables) (c : String) (hc : c ∈ t.columns)
    (hne : analyze_column (some c) ≠ "") :
    ∃ q ∈ all_occurrences tables, q.1 = analyze_column (some c) := by
  have hmem_fm : (c, analyze_column (some c)) ∈ t.columns.filterMap (fun x =>
      if analyze_column (some x) = "" then none
      else some (x, analyze_column (some x))) := by
    rw [List.mem_filterMap]
    exact ⟨c, hc, by rw [if_neg hne]⟩
  rcases dedupKeyed_covers Prod.fst [] _ hmem_fm with h | ⟨b, hb, hbk⟩
  · exact absurd h (List.not_mem_nil _)
  · have hbstd : b ∈ std_pairs t := hb
    obtain ⟨hbc, hbval, hbnz⟩ := std_pairs_spec t b hbstd
    have hbc' : b.1 = c := hbk
    refine ⟨(b.2, b.1), ?_, ?_⟩
    · unfold all_occurrences
      rw [List.mem_flatMap]
      refine ⟨t, htt, ?_⟩
      rw [List.mem_map]
      exact ⟨b, hbstd, rfl⟩
    · show b.2 = analyze_column (some c)
      rw [hbval, hbc']

theorem key_mem_mapping (tables : List RawTable) (k : String)
    (hocc : ∃ q ∈ all_occurrences tables, q.1 = k) :
    k ∈ (create_column_mapping tables).map Prod.fst := by
  obtain ⟨q, hq, hqk⟩ := hocc
  have hkey : k ∈ keysInOrder (all_occurrences tables) := by
    unfold keysInOrder
    have hk_mem : k ∈ (all_occurrences tables).map Prod.fst := by
      rw [List.mem_map]
      exact ⟨q, hq, hqk⟩
    rcases dedupKeyed_covers id [] k hk_mem with h | ⟨b, hb, hbk⟩
    · exact absurd h (List.not_mem_nil _)
    · have hbe : b = k := hbk
      rw [← hbe]
      exact hb
  have hne : origsOf (all_occurrences tables) k ≠ [] := by
    intro hempty
    have hq2 : q.2 ∈ origsOf (all_occurrences tables) k := by
      unfold origsOf
      rw [List.mem_filterMap]
      exact ⟨q, hq, by rw [if_pos hqk]⟩
    rw [hempty] at hq2
    exact absurd hq2 (List.not_mem_nil _)
  obtain ⟨o, hmc, _, _⟩ := mostCommon_spec _ hne
  rw [create_column_mapping_eq, List.mem_map]
  refine ⟨(k, o), ?_, rfl⟩
  rw [List.mem_filterMap]
  exact ⟨k, hkey, by rw [hmc]; rfl⟩

theorem dataColumns_ne_of_key (mapping : List (String × String)) (k : String)
    (hk : k ∈ mapping.map Prod.fst)
    (hnp : provNames.contains k = false) : dataColumns mapping ≠ [] := by
  have h1 : k ∈ projColumns mapping := by
    unfold projColumns
    rw [mem_foldl_addName]
    right
    rw [List.mem_append]
    exact Or.inl hk
  have h2 : k ∈ dataColumns mapping := by
    unfold dataColumns
    rw [List.mem_filter]
    refine ⟨h1, ?_⟩
    rw [hnp]
    rfl
  intro he
  rw [he] at h2
  exact absurd h2 (List.not_mem_nil k)

/-- C7 (amended): provided the table contributes at least one column whose
canonical key is non-empty and not a provenance name (so the dedup subset is
non-empty), merging `[T, T]` yields the same sequence of non-provenance rows
as merging `[T]` alone, whatever clock readings the two runs see: before
de-duplication only provenance fields differ between the two copies, and
de-duplication ignores provenance, so every row of the second copy is
removed.  When the table's only standardized keys are provenance names the
dedup subset is empty, the step is skipped, and `[T, T]` keeps each
non-provenance row twice (see the counterexample). -/
theorem claim_C7_merge_twice (T : RawTable) (clock clock2 : Nat → String)
    (c : String) (hc : c ∈ T.columns)
    (hne : analyze_column (some c) ≠ "")
    (hnp : provNames.contains (analyze_column (some c)) = false) :
    (merge_dataframes [T, T] (create_column_mapping [T, T]) clock).map rowData
      = (merge_dataframes [T] (create_column_mapping [T]) clock2).map rowData := by
  have hmap := create_column_mapping_double T
  have hkey : analyze_column (some c) ∈
      (create_column_mapping [T]).map Prod.fst :=
    key_mem_mapping [T] _
      (occurrence_of_column [T] T (List.mem_cons_self T []) c hc hne)
  have hdc : dataColumns (create_column_mapping [T]) ≠ [] :=
    dataColumns_ne_of_key _ _ hkey hnp
  have hout2 : merge_dataframes [T, T] (create_column_mapping [T, T]) clock
      = dedupKeyed rowData []
          (project_table (create_column_mapping [T]) T (clock 0) ++
            project_table (create_column_mapping [T]) T (clock 1)) := by
    unfold merge_dataframes
    rw [hmap, if_neg (by simp : ¬ ([T, T].isEmpty = true)), if_neg hdc]
    show dedupKeyed rowData []
        (concatProjected [T, T] (create_column_mapping [T]) clock) = _
    simp only [concatProjected, concatProjectedFrom, List.append_nil, Nat.zero_add]
  have hout1 : merge_dataframes [T] (create_column_mapping [T]) clock2
      = dedupKeyed rowData []
          (project_table (create_column_mapping [T]) T (clock2 0)) := by
    unfold merge_dataframes
    rw [if_neg (by simp : ¬ ([T].isEmpty = true)), if_neg hdc]
    show dedupKeyed rowData []
        (concatProjected [T] (create_column_mapping [T]) clock2) = _
    simp only [concatProjected, concatProjectedFrom, List.append_nil, Nat.zero_add]
  rw [hout2, hout1]
  have habsorb : dedupKeyed rowData []
      (project_table (create_column_mapping [T]) T (clock 0) ++
        project_table (create_column_mapping [T]) T (clock 1))
      = dedupKeyed rowData []
          (project_table (create_column_mapping [T]) T (clock 0)) := by
    apply dedupKeyed_append_absorb
    intro r hr
    have hmapeq := map_rowData_project_table (create_column_mapping [T]) T
      (clock 1) (clock 0)
    have hrk : rowData r ∈ (project_table (create_column_mapping [T]) T
        (clock 0)).map rowData := by
      rw [← hmapeq, List.mem_map]
      exact ⟨r, hr, rfl⟩
    rw [List.mem_map] at hrk
    obtain ⟨s, hs, hsk⟩ := hrk
    exact ⟨s, hs, hsk⟩
  rw [habsorb]
  exact dedupKeyed_map_key_congr rowData []
    (map_rowData_project_table (create_column_mapping [T]) T (clock 0) (clock2 0))

/-- Concrete table for the C7 witness. -/
def C7T : RawTable := ⟨"f.xlsx", "S1", ["Status"], [[some "OK"], [some "NO"]]⟩

/-- Witness for C7 (amended): merging `[C7T, C7T]` and `[C7T]` agree on
non-provenance rows. -/
theorem claim_C7_merge_twice_witness :
    (merge_dataframes [C7T, C7T] (create_column_mapping [C7T, C7T])
        (fun n => if n = 0 then "t0" else "t1")).map rowData
      = (merge_dataframes [C7T] (create_column_mapping [C7T])
          (fun _ => "t9")).map rowData :=
  claim_C7_merge_twice C7T (fun n => if n = 0 then "t0" else "t1")
    (fun _ => "t9") "Status" (by decide) (by decide) (by decide)

/-! ## Claim C9: empty inputs and the "nothing to merge" outcome -/

theorem concatProjectedFrom_cons (t : RawTable) (rest : List RawTable)
    (mapping : List (String × String)) (clock : Nat → String) (i : Nat) :
    concatProjectedFrom (t :: rest) mapping clock i
      = project_table mapping t (clock i)
        ++ concatProjectedFrom rest mapping clock (i + 1) := rfl

/-- With an empty mapping no entry can be found, so a table's projected
block is empty: the scalar writes of lines 240/243-245 broadcast over the
empty frame's empty index. -/
theorem project_table_nil_mapping (t : RawTable) (ts : String) :
    project_table [] t ts = [] := rfl

theorem concatProjectedFrom_nil_mapping (tables : List RawTable)
    (clock : Nat → String) (i : Nat) :
    concatProjectedFrom tables [] clock i = [] := by
  induction tables generalizing i with
  | nil => rfl
  | cons t rest ih =>
    rw [concatProjectedFrom_cons, project_table_nil_mapping, List.nil_append]
    exact ih (i + 1)

/-- Concrete table for the C9 witness: one loaded table whose only header is
the empty string, so the ColumnMapping comes out empty. -/
def C9T : RawTable := ⟨"f.xlsx", "S", [""], [[some "x"]]⟩

/-- C9: if zero tables survive loading, or the resulting ColumnMapping is
empty, the merge returns an empty MergedTable and `merge_excel_files`
signals the distinguished "nothing to merge" outcome (`return None, None`
after the "No valid data" / "No data to merge" messages); the model is a
total function, so neither case raises.  With an empty mapping every
projected block receives only scalar assignments on an empty frame and
keeps zero rows, so the concatenated `master_df` is empty and the
`master_df.empty` check at main.py line 399 fires. -/
theorem claim_C9_nothing_to_merge (tables : List RawTable) (clock : Nat → String)
    (h : tables = [] ∨ create_column_mapping tables = []) :
    merge_dataframes tables (create_column_mapping tables) clock = [] ∧
    merge_excel_files_core tables clock = MergeOutcome.nothingToMerge := by
  have hmaster : merge_dataframes tables (create_column_mapping tables) clock
      = [] := by
    rcases h with rfl | hmap
    · rfl
    · rw [hmap]
      unfold merge_dataframes
      by_cases he : tables.isEmpty = true
      · rw [if_pos he]
      · rw [if_neg he,
          if_pos (by decide : dataColumns ([] : List (String × String)) = [])]
        exact concatProjectedFrom_nil_mapping tables clock 0
  refine ⟨hmaster, ?_⟩
  show (if tables.isEmpty = true then MergeOutcome.nothingToMerge
      else if (merge_dataframes tables
          (create_column_mapping tables) clock).isEmpty = true
        then MergeOutcome.nothingToMerge
        else MergeOutcome.merged (merge_dataframes tables
          (create_column_mapping tables) clock))
      = MergeOutcome.nothingToMerge
  by_cases he : tables.isEmpty = true
  · rw [if_pos he]
  · rw [if_neg he, hmaster]
    rfl

/-- Witness for C9: a loaded table with an all-whitespace header yields an
empty mapping, an empty merged table, and the "nothing to merge" outcome. -/
theorem claim_C9_nothing_to_merge_witness :
    merge_dataframes [C9T] (create_column_mapping [C9T]) (fun _ => "t") = [] ∧
    merge_excel_files_core [C9T] (fun _ => "t")
      = MergeOutcome.nothingToMerge :=
  claim_C9_nothing_to_merge [C9T] (fun _ => "t") (Or.inr (by decide))

/-- C7 counterexample: when the only mapping key is the provenance name
`source_file`, the dedup subset is empty and the dedup step is skipped, so
merging `[T, T]` yields each non-provenance row twice while merging `[T]`
yields it once — the two sequences of non-provenance rows differ. -/
theorem claim_C7_counterexample :
    (merge_dataframes [C6Tprov, C6Tprov]
        (create_column_mapping [C6Tprov, C6Tprov])
        (fun n => if n = 0 then "a" else "b")).map rowData = [[], [], [], []] ∧
    (merge_dataframes [C6Tprov] (create_column_mapping [C6Tprov])
        (fun _ => "c")).map rowData = [[], []] ∧
    ([[], [], [], []] : List Row) ≠ [[], []] := by decide
